import Mathlib

/-!
# Meet-in-the-middle attack on textbook RSA

Shallow embedding of `rsa-meet-in-middle.c` (single-threaded) and
`rsa-meet-in-middle-parallelized.c` (worker threads), followed by theorems
about the embedded functions.

Conventions of the embedding.

* `mpz_t` values are natural numbers: every big integer of the program is an
  exponentiation or product reduced modulo `n`, a table index, or a parsed
  non-negative literal.
* `size_t` is 64 bits wide; where the C arithmetic can wrap, the model reduces
  modulo `2 ^ 64`.  `ssize_t` values are integers.
* The table is a list of `precalc` records; the `size` argument travels
  separately, as in C.
* A run that leaves defined behaviour (a read outside the table, a shift by
  at least the width) ends in a `Fault`.
* GMP and libc are outside the repository.  Their functions are modelled from
  their documented contracts, for a modulus `n > 0` (GMP aborts with a
  division by zero on `n = 0`).
-/

namespace RsaMitm

/-! ## Data model -/

/-- Table entry `struct precalc`: the source documents `val == pow(i,e) mod N`. -/
structure precalc where
  i : Nat
  val : Nat
deriving DecidableEq

/-- Reasons for which a run has no defined result. -/
inductive Fault where
  /-- An array element outside the table was read. -/
  | oob
  /-- A shift count was not smaller than the width of the shifted operand. -/
  | shift
  /-- The iteration budget of the model ran out (the C loop would still be running). -/
  | nofuel
deriving DecidableEq

instance {ε α : Type} [DecidableEq ε] [DecidableEq α] : DecidableEq (Except ε α)
  | .ok a, .ok b => if h : a = b then isTrue (by rw [h]) else isFalse (fun h2 => h (by cases h2; rfl))
  | .error a, .error b =>
    if h : a = b then isTrue (by rw [h]) else isFalse (fun h2 => h (by cases h2; rfl))
  | .ok _, .error _ => isFalse (fun h => by cases h)
  | .error _, .ok _ => isFalse (fun h => by cases h)

/-- Number of values of a `size_t`. -/
def SIZE_T : Nat := 2 ^ 64

/-- Result of `size_t` arithmetic: the mathematical value `z` reduced modulo
`2 ^ 64`. -/
def size_t_of_int (z : Int) : Nat := (z % (SIZE_T : Int)).toNat

/-- Conversion `(ssize_t) k` of a `size_t` value. -/
def to_ssize (k : Nat) : Int :=
  if k < 2 ^ 63 then (k : Int) else (k : Int) - 2 ^ 64

/-- Read of `arr[idx]` with a signed index. -/
def read_at (arr : List precalc) (idx : Int) : Option precalc :=
  if 0 ≤ idx then arr[idx.toNat]? else none

/-! ## GMP and libc -/

/-- GMP `mpz_powm`: `base ^ exp mod n`. -/
def mpz_powm (base exp n : Nat) : Nat := base ^ exp % n

/-- GMP `mpz_mul`. -/
def mpz_mul (a b : Nat) : Nat := a * b

/-- GMP `mpz_mod`. -/
def mpz_mod (a n : Nat) : Nat := a % n

/-- GMP `mpz_cmp`: only the sign of the result is specified. -/
def mpz_cmp (a b : Nat) : Int :=
  if a < b then -1 else if b < a then 1 else 0

/-- Extended Euclid on the remainder pair `(r0, r1)`, carrying for each
remainder a coefficient `s` with `r ≡ s * a (mod n)`. -/
def invert_loop : Nat → Nat → Nat → Int → Int → Nat × Int
  | 0, r0, _, s0, _ => (r0, s0)
  | fuel + 1, r0, r1, s0, s1 =>
    if r1 = 0 then (r0, s0)
    else invert_loop fuel r1 (r0 % r1) s1 (s0 - (r0 / r1 : Nat) * s1)

/-- GMP `mpz_invert(rop, op1, n)`.  When `op1` has an inverse modulo `n`, `rop`
becomes the inverse in `[0, n)`.  Otherwise GMP returns zero and documents
`rop` as undefined: `junk op1 n` stands for whatever is left there.  The
program ignores the return value, so only `rop` is modelled. -/
def mpz_invert (junk : Nat → Nat → Nat) (op1 n : Nat) : Nat :=
  if Nat.gcd op1 n = 1 then
    ((invert_loop n n (op1 % n) 0 1).2 % (n : Int)).toNat
  else junk op1 n

/-- Insertion of one element in front of the first element that does not
compare below it. -/
def qsort_insert {α : Type} (cmp : α → α → Int) (a : α) : List α → List α
  | [] => [a]
  | b :: l => if cmp a b ≤ 0 then a :: b :: l else b :: qsort_insert cmp a l

/-- The libc `qsort` with comparator `cmp`, as an insertion sort.  The C standard
fixes the result up to the order of elements that compare equal. -/
def qsort {α : Type} (cmp : α → α → Int) (arr : List α) : List α :=
  arr.foldr (qsort_insert cmp) []

/-! ## Functions shared by both programs -/

/-- Loop of `binary_search`.  `low`, `high` and `mid` are `size_t`:
`mid + 1` and `mid - 1` wrap modulo `2 ^ 64`. -/
def binary_search_loop (arr : List precalc) (x : Nat) : Nat → Nat → Nat → Except Fault Int
  | 0, _, _ => .error .nofuel
  | fuel + 1, low, high =>
    if low ≤ high then
      let mid := low + (high - low) / 2
      match arr[mid]? with
      | none => .error .oob
      | some p =>
        if mpz_cmp p.val x < 0 then
          binary_search_loop arr x fuel (size_t_of_int ((mid : Int) + 1)) high
        else if mpz_cmp p.val x > 0 then
          binary_search_loop arr x fuel low (size_t_of_int ((mid : Int) - 1))
        else .ok (to_ssize mid)
    else .ok (-1)

/-- Function `binary_search(arr, x, size)`: `high` starts at `size - 1` computed
in `size_t`.  The interval `[low, high]` shrinks in every iteration that does
not wrap, and a run that wraps `high` reads slot `2 ^ 63 - 1` next, so the
budget of `size + 2` iterations is not exhausted on any table of fewer than
`2 ^ 63` entries (`binary_search_fuel_suffices`). -/
def binary_search (arr : List precalc) (x : Nat) (size : Nat) : Except Fault Int :=
  binary_search_loop arr x (size + 2) 0 (size_t_of_int ((size : Int) - 1))

/-- Comparator `compare_precalc`: `mpz_cmp` of the two `val` fields. -/
def compare_precalc (p1 p2 : precalc) : Int := mpz_cmp p1.val p2.val

/-- Statement `size_t table_size = 1UL << (uint64_t)L/2;` of both `main`s. -/
def table_size (L : Nat) : Except Fault Nat :=
  if L / 2 < 64 then .ok (2 ^ (L / 2)) else .error .shift

/-- Value `s = c * ii^(-e) mod n` looked up for the candidate `ii`
(the four GMP calls of the loop body). -/
def lookup_value (junk : Nat → Nat → Nat) (c e n ii : Nat) : Nat :=
  let tmp := mpz_powm ii e n
  let tmp := mpz_invert junk tmp n
  let s := mpz_mul c tmp
  mpz_mod s n

/-- Table handed out by `alloc_table` when it succeeds: `size` entries whose
`val` is initialised to zero.  The `i` field is not initialised; zero stands
for its content, and the theorems on the build phase hold for any content. -/
def fresh_table (size : Nat) : List precalc := List.replicate size ⟨0, 0⟩

/-- Size `sizeof(struct precalc)` on the 64-bit target: a `size_t` and an
`mpz_t` (two `int`s and a limb pointer). -/
def sizeof_precalc : Nat := 24

/-- Function `alloc_table(size)` of both programs.  `malloc b` tells whether
the C library grants a block of `b` bytes.  The result is `none` for `NULL`
and otherwise the `size` entries that the loop of `mpz_init` calls
initialises in the block. -/
def alloc_table (malloc : Nat → Bool) (size : Nat) : Option (List precalc) :=
  if size * sizeof_precalc % SIZE_T ≤ size then none
  else if malloc (size * sizeof_precalc % SIZE_T) = true then some (fresh_table size)
  else none

/-- What `main` reports before it exits. -/
inductive Report where
  /-- Message "Allocation failed", exit status 1. -/
  | allocation_failed
  /-- Message "Meet-in-the-middle attack failed", exit status 1. -/
  | attack_failed
  /-- Message "Recovered message:" followed by `m`, exit status 0. -/
  | recovered (m : Nat)
deriving DecidableEq

/-- Constant `N` (base 10) of both programs. -/
def N : Nat :=
  382686643158444490759262537580603061919861825022702966509685123135610465162838462997511168973839139387267231730593487412800044924495204097757680232772228733125618598449291877751388758432792252179470197

/-- Constant `CIPHERTEXT` (base 16) of both programs. -/
def CIPHERTEXT : Nat :=
  0x382ed82bad6afb2f789f5078b058c939a1e94a5bc7d4fc0e9c346418fda0cc95886ba4a20efe921482829839e2163f945e7cc04cc319b3ca0a8a78ca6ed1b2feeb97ea40a7aa1dc705a722b9a2605877809915b

/-- Constant `E` of both programs. -/
def E : Nat := 65537

/-- Constant `L` of both programs. -/
def L : Nat := 12

/-! ## Single-threaded program -/

namespace Single

/-- Single-threaded `build_table(arr, size, e, n)`: slot `i` receives index
`i + 1` and value `(i + 1) ^ e mod n`. -/
def build_table (arr : List precalc) (size e n : Nat) : List precalc :=
  (List.range size).foldl (fun a i => a.set i ⟨i + 1, mpz_powm (i + 1) e n⟩) arr

/-- The `for` loop of the single-threaded `rsa_meet_in_the_middle` over the
remaining slots; the state is `(idx, ii)`. -/
def search_loop (junk : Nat → Nat → Nat) (c : Nat) (arr : List precalc) (size e n : Nat) :
    List Nat → Int × Nat → Except Fault (Int × Nat)
  | [], st => .ok st
  | i :: rest, _ =>
    match binary_search arr (lookup_value junk c e n (i + 1)) size with
    | .error f => .error f
    | .ok idx =>
      if idx ≠ -1 then .ok (idx, i + 1)
      else search_loop junk c arr size e n rest (idx, i + 1)

/-- Single-threaded `rsa_meet_in_the_middle(c, arr, size, e, n, res)`: the
return value and the content of `res` afterwards. -/
def rsa_meet_in_the_middle (junk : Nat → Nat → Nat) (c : Nat) (arr : List precalc)
    (size e n : Nat) (res : Nat) : Except Fault (Int × Nat) :=
  match search_loop junk c arr size e n (List.range size) (-1, 0) with
  | .error f => .error f
  | .ok (idx, ii) =>
    if idx ≠ -1 then
      match read_at arr idx with
      | none => .error .oob
      | some p => .ok (0, mpz_mul ii p.i)
    else .ok (1, res)

/-- Body of the single-threaded `main` from the build phase on: `table` is the
array obtained from `alloc_table`.  `some m` is the printed plaintext, `none`
the exit with "Meet-in-the-middle attack failed". -/
def attack_on (junk : Nat → Nat → Nat) (table : List precalc) (N E c size : Nat) :
    Except Fault (Option Nat) :=
  let table := build_table table size E N
  let table := qsort compare_precalc table
  match rsa_meet_in_the_middle junk c table size E N 0 with
  | .error f => .error f
  | .ok (r, m) => if r ≠ 0 then .ok none else .ok (some m)

/-- The attack of the single-threaded `main` over the parameters `N`, `E`,
`CIPHERTEXT`, `L`: table size from `L`, then build, sort and search on the
table that a successful `alloc_table` hands out. -/
def attack (junk : Nat → Nat → Nat) (N E c L : Nat) : Except Fault (Option Nat) :=
  match table_size L with
  | .error f => .error f
  | .ok size => attack_on junk (fresh_table size) N E c size

/-- Single-threaded `main` over the parameters `N`, `E`, `CIPHERTEXT`, `L`,
allocation included. -/
def main_on (malloc : Nat → Bool) (junk : Nat → Nat → Nat) (N E c L : Nat) :
    Except Fault Report :=
  match table_size L with
  | .error f => .error f
  | .ok size =>
    match alloc_table malloc size with
    | none => .ok .allocation_failed
    | some table =>
      match attack_on junk table N E c size with
      | .error f => .error f
      | .ok none => .ok .attack_failed
      | .ok (some m) => .ok (.recovered m)

/-- Single-threaded `main` on the constants compiled into the program. -/
def main (malloc : Nat → Bool) (junk : Nat → Nat → Nat) : Except Fault Report :=
  main_on malloc junk N E CIPHERTEXT L

end Single

/-! ## Program with worker threads -/

namespace Parallel

/-- Constant `NUM_THREADS`. -/
def NUM_THREADS : Nat := 10

/-- Statement `size_t range = (table_size + NUM_THREADS - 1) / NUM_THREADS;`
for `W` workers (`W ≥ 1`), in `size_t` arithmetic. -/
def slice_range (W size : Nat) : Nat := (size + W - 1) % SIZE_T / W

/-- Fields `start` and `end` of `args[i]` for the build phase:
`i * range` and `MIN((i + 1) * range, table_size)`. -/
def build_args (W size i : Nat) : Nat × Nat :=
  (i * slice_range W size % SIZE_T, min ((i + 1) * slice_range W size % SIZE_T) size)

/-- Fields `start` and `end` of `mitm_args[i]` for the search phase:
`i * range` and `MIN((i + 1) * range, table_size)`. -/
def mitm_args (W size i : Nat) : Nat × Nat :=
  (i * slice_range W size % SIZE_T, min ((i + 1) * slice_range W size % SIZE_T) size)

/-- Threaded `build_table(arr, start, end, e, n)`: the slots `start ≤ i < end`
are written. -/
def build_table (arr : List precalc) (start end_ e n : Nat) : List precalc :=
  (List.range' start (end_ - start)).foldl
    (fun a i => a.set i ⟨i + 1, mpz_powm (i + 1) e n⟩) arr

/-- Build phase of `main`: one `build_table_thread` per worker, each on its
slice.  The workers write disjoint slots, so a run is described by the order
`order` in which the workers take effect. -/
def build_phase (table : List precalc) (W size e n : Nat) (order : List Nat) : List precalc :=
  order.foldl
    (fun t i => build_table t (build_args W size i).1 (build_args W size i).2 e n) table

/-- The `for` loop of the threaded `rsa_meet_in_the_middle`; the state is
`(idx, ii)`.  The flag `*stop` is read after every lookup.  Workers are run
one after the other, so every read within one call yields the same `stop`. -/
def search_loop (junk : Nat → Nat → Nat) (c : Nat) (arr : List precalc) (size e n : Nat)
    (stop : Bool) : List Nat → Int × Nat → Except Fault (Int × Nat)
  | [], st => .ok st
  | i :: rest, _ =>
    match binary_search arr (lookup_value junk c e n (i + 1)) size with
    | .error f => .error f
    | .ok idx =>
      if idx ≠ -1 ∨ stop = true then .ok (idx, i + 1)
      else search_loop junk c arr size e n stop rest (idx, i + 1)

/-- Threaded `rsa_meet_in_the_middle(c, arr, size, start, end, e, n, stop, res)`:
the return value, the content of `res` and the flag `*stop` afterwards. -/
def rsa_meet_in_the_middle (junk : Nat → Nat → Nat) (c : Nat) (arr : List precalc)
    (size start end_ e n : Nat) (stop : Bool) (res : Nat) : Except Fault (Int × Nat × Bool) :=
  match search_loop junk c arr size e n stop (List.range' start (end_ - start)) (-1, 0) with
  | .error f => .error f
  | .ok (idx, ii) =>
    if idx ≠ -1 then
      match read_at arr idx with
      | none => .error .oob
      | some p => .ok (0, mpz_mul ii p.i, true)
    else .ok (1, res, stop)

/-- Thread body `rsa_meet_in_the_middle_thread` with a successful `malloc` of the
result cell: the field `res` afterwards (`none` for `NULL`) and the flag. -/
def rsa_meet_in_the_middle_thread (junk : Nat → Nat → Nat) (c : Nat) (arr : List precalc)
    (size start end_ e n : Nat) (stop : Bool) : Except Fault (Option Nat × Bool) :=
  match rsa_meet_in_the_middle junk c arr size start end_ e n stop 0 with
  | .error f => .error f
  | .ok (r, res, stop1) => if r ≠ 0 then .ok (none, stop1) else .ok (some res, stop1)

/-- Search phase of `main` with the workers `ws` run to completion one after
the other, sharing the flag: the `res` fields of the workers, in that order. -/
def search_phase (junk : Nat → Nat → Nat) (W c : Nat) (arr : List precalc) (size e n : Nat) :
    List Nat → Bool → Except Fault (List (Option Nat))
  | [], _ => .ok []
  | i :: ws, stop =>
    match rsa_meet_in_the_middle_thread junk c arr size
        (mitm_args W size i).1 (mitm_args W size i).2 e n stop with
    | .error f => .error f
    | .ok (r, stop1) =>
      match search_phase junk W c arr size e n ws stop1 with
      | .error f => .error f
      | .ok rs => .ok (r :: rs)

/-- Join loop of `main`: `m` starts as `NULL` and is overwritten by every
non-`NULL` worker result, in worker order. -/
def result_scan (results : List (Option Nat)) : Option Nat :=
  results.foldl (fun m r => if r.isSome then r else m) none

/-- Body of the threaded `main` from the build phase on, for `W` workers. -/
def attack_on (junk : Nat → Nat → Nat) (W : Nat) (table : List precalc) (N E c size : Nat) :
    Except Fault (Option Nat) :=
  let table := build_phase table W size E N (List.range W)
  let table := qsort compare_precalc table
  match search_phase junk W c table size E N (List.range W) false with
  | .error f => .error f
  | .ok rs => .ok (result_scan rs)

/-- The attack of the threaded `main` over the parameters `N`, `E`,
`CIPHERTEXT`, `L` and the worker count `W`: table size from `L`, then build,
sort and search on the table that a successful `alloc_table` hands out. -/
def attack (junk : Nat → Nat → Nat) (W N E c L : Nat) : Except Fault (Option Nat) :=
  match table_size L with
  | .error f => .error f
  | .ok size => attack_on junk W (fresh_table size) N E c size

/-- Threaded `main` over the parameters `N`, `E`, `CIPHERTEXT`, `L` and the
worker count `W`, allocation of the table included. -/
def main_on (malloc : Nat → Bool) (junk : Nat → Nat → Nat) (W N E c L : Nat) :
    Except Fault Report :=
  match table_size L with
  | .error f => .error f
  | .ok size =>
    match alloc_table malloc size with
    | none => .ok .allocation_failed
    | some table =>
      match attack_on junk W table N E c size with
      | .error f => .error f
      | .ok none => .ok .attack_failed
      | .ok (some m) => .ok (.recovered m)

/-- Threaded `main` on the constants compiled into the program. -/
def main (malloc : Nat → Bool) (junk : Nat → Nat → Nat) : Except Fault Report :=
  main_on malloc junk NUM_THREADS N E CIPHERTEXT L

end Parallel

/-! ## Specification vocabulary -/

/-- Outcome of a lookup of `x`: either `-1` with `x` absent from the table, or the
index of an entry whose value is `x`. -/
def lookup_spec (arr : List precalc) (x : Nat) (r : Int) : Prop :=
  (r = -1 ∧ ∀ p ∈ arr, p.val ≠ x) ∨
  (∃ (k : Nat) (p : precalc), r = (k : Int) ∧ arr[k]? = some p ∧ p.val = x)

/-- Candidate `j` has a match: some table entry carries its lookup value. -/
def has_match (junk : Nat → Nat → Nat) (c : Nat) (arr : List precalc) (e n j : Nat) : Prop :=
  ∃ p ∈ arr, p.val = lookup_value junk c e n j

/-- Entry that the build phase writes into slot `k`: index `k + 1` with
`val == pow(i,e) mod N`. -/
def entry (e n k : Nat) : precalc := ⟨k + 1, mpz_powm (k + 1) e n⟩

/-- The completely built table of `size` entries. -/
def built (size e n : Nat) : List precalc := (List.range size).map (entry e n)

/-- Preconditions under which every lookup of the search phase stays inside the
table: the table of `size` entries (`1 ≤ size ≤ 2 ^ 63`) is sorted by value and
no candidate's lookup value lies below the first entry. -/
def searchable (junk : Nat → Nat → Nat) (c : Nat) (arr : List precalc) (size e n : Nat) : Prop :=
  arr.Pairwise (fun p q => p.val ≤ q.val) ∧ arr.length = size ∧ 1 ≤ size ∧ size ≤ 2 ^ 63 ∧
  ∀ j p, 1 ≤ j → j ≤ size → arr[0]? = some p → p.val ≤ lookup_value junk c e n j

/-- A worker result that is either empty or the product `j * i` of a candidate
`j` of the searched range with the index `i` of an entry matching it. -/
def valid_result (junk : Nat → Nat → Nat) (c : Nat) (arr : List precalc) (size e n : Nat)
    (r : Option Nat) : Prop :=
  r = none ∨ ∃ (j : Nat) (p : precalc), 1 ≤ j ∧ j ≤ size ∧ p ∈ arr ∧
    p.val = lookup_value junk c e n j ∧ r = some (j * p.i)

/-- Loop of `binary_search` with a ghost record: the slots read so far (latest
first) and whether a decrement of the `size_t` zero has happened.  The control
flow is that of `binary_search_loop`. -/
def binary_search_loop_traced (arr : List precalc) (x : Nat) :
    Nat → Nat → Nat → List Nat → Bool → Except Fault Int × List Nat × Bool
  | 0, _, _, reads, wrapped => (.error .nofuel, reads, wrapped)
  | fuel + 1, low, high, reads, wrapped =>
    if low ≤ high then
      let mid := low + (high - low) / 2
      match arr[mid]? with
      | none => (.error .oob, mid :: reads, wrapped)
      | some p =>
        if mpz_cmp p.val x < 0 then
          binary_search_loop_traced arr x fuel (size_t_of_int ((mid : Int) + 1)) high
            (mid :: reads) wrapped
        else if mpz_cmp p.val x > 0 then
          binary_search_loop_traced arr x fuel low (size_t_of_int ((mid : Int) - 1))
            (mid :: reads) (wrapped || decide (mid = 0))
        else (.ok (to_ssize mid), mid :: reads, wrapped)
    else (.ok (-1), reads, wrapped)

/-- Function `binary_search` with the ghost record; `size - 1` is a decrement of
zero when `size = 0`. -/
def binary_search_traced (arr : List precalc) (x : Nat) (size : Nat) :
    Except Fault Int × List Nat × Bool :=
  binary_search_loop_traced arr x (size + 2) 0 (size_t_of_int ((size : Int) - 1)) []
    (decide (size = 0))

/-! # Properties of the embedded program -/

/-! ## GMP model -/

theorem mpz_cmp_neg (a b : Nat) : mpz_cmp a b < 0 ↔ a < b := by
  unfold mpz_cmp; split_ifs <;> omega

theorem mpz_cmp_pos (a b : Nat) : mpz_cmp a b > 0 ↔ b < a := by
  unfold mpz_cmp; split_ifs <;> omega

theorem mpz_cmp_nonpos (a b : Nat) : mpz_cmp a b ≤ 0 ↔ a ≤ b := by
  unfold mpz_cmp; split_ifs <;> omega

/-- Invariant of the extended Euclid loop: the first component of the result is
the gcd of the remainder pair and is congruent to `s * a` modulo `n`. -/
theorem invert_loop_spec (a n : Nat) :
    ∀ (fuel r0 r1 : Nat) (s0 s1 : Int), r1 ≤ fuel →
      (r0 : Int) ≡ s0 * a [ZMOD n] → (r1 : Int) ≡ s1 * a [ZMOD n] →
      (invert_loop fuel r0 r1 s0 s1).1 = Nat.gcd r0 r1 ∧
      ((invert_loop fuel r0 r1 s0 s1).1 : Int) ≡ (invert_loop fuel r0 r1 s0 s1).2 * a [ZMOD n] := by
  intro fuel
  induction fuel with
  | zero =>
    intro r0 r1 s0 s1 h1 h0 _
    have : r1 = 0 := by omega
    subst this
    simp [invert_loop, h0]
  | succ k ih =>
    intro r0 r1 s0 s1 hk h0 h1
    by_cases hr : r1 = 0
    · subst hr
      simp [invert_loop, h0]
    · have hlt : r0 % r1 < r1 := Nat.mod_lt _ (Nat.pos_of_ne_zero hr)
      have hstep : ((r0 % r1 : Nat) : Int) ≡ (s0 - (r0 / r1 : Nat) * s1) * a [ZMOD n] := by
        have e1 : ((r0 % r1 : Nat) : Int) = r0 - (r0 / r1 : Nat) * r1 := by
          have := Nat.div_add_mod r0 r1
          push_cast
          have h2 : (r0 : Int) = r1 * (r0 / r1) + r0 % r1 := by exact_mod_cast this.symm
          linarith
        rw [e1, sub_mul, mul_assoc]
        exact Int.ModEq.sub h0 (Int.ModEq.mul_left _ h1)
      have := ih r1 (r0 % r1) s1 (s0 - (r0 / r1 : Nat) * s1) (by omega) h1 hstep
      simp only [invert_loop, hr, if_false]
      refine ⟨?_, this.2⟩
      rw [this.1, Nat.gcd_comm r0 r1, Nat.gcd_rec r1 r0, Nat.gcd_comm]

/-- For an invertible operand `mpz_invert` yields the inverse in `[0, n)`,
whatever a failed inversion would leave behind. -/
theorem mpz_invert_spec (junk : Nat → Nat → Nat) (a n : Nat) (hn : 0 < n)
    (hg : Nat.gcd a n = 1) :
    mpz_invert junk a n < n ∧ a * mpz_invert junk a n % n = 1 % n := by
  have hspec := invert_loop_spec a n n n (a % n) 0 1 (Nat.mod_lt _ hn).le
    (by simpa using (Int.modEq_zero_iff_dvd.mpr (dvd_refl _)))
    (by simpa using (Int.mod_modEq (a : Int) n))
  obtain ⟨hg1, hs⟩ := hspec
  have hgcd : Nat.gcd n (a % n) = 1 := by
    rw [Nat.gcd_comm, ← Nat.gcd_rec, Nat.gcd_comm] at *; exact hg
  rw [hgcd] at hg1
  rw [hg1] at hs
  set s := (invert_loop n n (a % n) 0 1).2 with hsdef
  have hnz : (n : Int) ≠ 0 := by exact_mod_cast hn.ne'
  have hnn : 0 ≤ s % (n : Int) := Int.emod_nonneg _ hnz
  have hlt : s % (n : Int) < n := Int.emod_lt_of_pos _ (by exact_mod_cast hn)
  have hval : mpz_invert junk a n = (s % (n : Int)).toNat := by
    simp [mpz_invert, hg, hsdef]
  have hcast : ((mpz_invert junk a n : Nat) : Int) = s % (n : Int) := by
    rw [hval, Int.toNat_of_nonneg hnn]
  constructor
  · have : ((mpz_invert junk a n : Nat) : Int) < n := by rw [hcast]; exact hlt
    exact_mod_cast this
  · have h1 : ((a * mpz_invert junk a n : Nat) : Int) ≡ 1 [ZMOD n] := by
      push_cast
      rw [hcast]
      calc (a : Int) * (s % n) ≡ a * s [ZMOD n] := Int.ModEq.mul_left _ (Int.mod_modEq s n)
        _ = s * a := by ring
        _ ≡ 1 [ZMOD n] := by simpa using hs.symm
    have h2 : (a * mpz_invert junk a n) ≡ 1 [MOD n] := by
      exact (Int.natCast_modEq_iff).mp (by simpa using h1)
    exact h2

/-! ## Binary search -/

theorem SIZE_T_eq : SIZE_T = 2 ^ 64 := rfl

/-- Incrementing a `size_t` below `2 ^ 64 - 1` does not wrap. -/
theorem size_t_of_int_succ (k : Nat) (hk : k + 1 < 2 ^ 64) :
    size_t_of_int ((k : Int) + 1) = k + 1 := by
  unfold size_t_of_int
  rw [SIZE_T_eq]
  have h : ((k : Int) + 1) % ((2 ^ 64 : Nat) : Int) = (k : Int) + 1 :=
    Int.emod_eq_of_lt (by omega) (by push_cast; omega)
  rw [h]
  omega

/-- Decrementing a positive `size_t` does not wrap. -/
theorem size_t_of_int_pred (k : Nat) (hk : 1 ≤ k) (hk2 : k ≤ 2 ^ 64) :
    size_t_of_int ((k : Int) - 1) = k - 1 := by
  unfold size_t_of_int
  rw [SIZE_T_eq]
  have h : ((k : Int) - 1) % ((2 ^ 64 : Nat) : Int) = (k : Int) - 1 :=
    Int.emod_eq_of_lt (by omega) (by push_cast; omega)
  rw [h]
  omega

/-- Decrementing the `size_t` zero wraps to `2 ^ 64 - 1`. -/
theorem size_t_of_int_pred_zero : size_t_of_int ((0 : Nat) - 1 : Int) = 2 ^ 64 - 1 := by
  decide

theorem sorted_getElem? {arr : List precalc}
    (hs : arr.Pairwise (fun p q => p.val ≤ q.val)) {i j : Nat} {p q : precalc}
    (hij : i ≤ j) (hp : arr[i]? = some p) (hq : arr[j]? = some q) : p.val ≤ q.val := by
  obtain ⟨hi, rfl⟩ := List.getElem?_eq_some.mp hp
  obtain ⟨hj, rfl⟩ := List.getElem?_eq_some.mp hq
  rcases Nat.eq_or_lt_of_le hij with h | h
  · subst h; exact le_refl _
  · exact (List.pairwise_iff_getElem.mp hs) i j hi hj h

/-- Loop invariant of `binary_search`: entries left of `low` are below `x`,
entries right of `high` are above `x`.  With `x` not below the first entry the
loop never wraps, stays inside the table and answers correctly. -/
theorem binary_search_loop_spec (arr : List precalc) (x : Nat)
    (hs : arr.Pairwise (fun p q => p.val ≤ q.val))
    (hlen : arr.length ≤ 2 ^ 63)
    (hmin : ∀ p, arr[0]? = some p → p.val ≤ x) :
    ∀ (fuel low high : Nat), low ≤ high + 1 → high < arr.length → high + 2 ≤ fuel + low →
      (∀ k p, k < low → arr[k]? = some p → p.val < x) →
      (∀ k p, high < k → arr[k]? = some p → x < p.val) →
      ∃ r, binary_search_loop arr x fuel low high = .ok r ∧ lookup_spec arr x r := by
  intro fuel
  induction fuel with
  | zero => intro low high h1 _ h3; omega
  | succ f ih =>
    intro low high h1 h2 h3 hlo hhi
    unfold binary_search_loop
    by_cases hle : low ≤ high
    · simp only [hle, if_true]
      have hmid_lo : low ≤ low + (high - low) / 2 := Nat.le_add_right _ _
      have hmid_hi : low + (high - low) / 2 ≤ high := by omega
      generalize hm : low + (high - low) / 2 = mid at *
      have hmlt : mid < arr.length := by omega
      rw [List.getElem?_eq_getElem hmlt]
      simp only []
      have hget : arr[mid]? = some arr[mid] := List.getElem?_eq_getElem hmlt
      by_cases hlt : arr[mid].val < x
      · rw [if_pos ((mpz_cmp_neg _ _).mpr hlt)]
        rw [size_t_of_int_succ mid (by omega)]
        apply ih (mid + 1) high (by omega) h2 (by omega) _ hhi
        intro k p hk hp
        exact lt_of_le_of_lt (sorted_getElem? hs (by omega) hp hget) hlt
      · rw [if_neg (by rw [mpz_cmp_neg]; exact hlt)]
        by_cases hgt : x < arr[mid].val
        · rw [if_pos ((mpz_cmp_pos _ _).mpr hgt)]
          have hm0 : mid ≠ 0 := by
            intro h0
            subst h0
            have := hmin _ hget
            omega
          rw [size_t_of_int_pred mid (by omega) (by omega)]
          apply ih low (mid - 1) (by omega) (by omega) (by omega) hlo
          intro k p hk hp
          exact lt_of_lt_of_le hgt (sorted_getElem? hs (by omega) hget hp)
        · rw [if_neg (fun h => hgt ((mpz_cmp_pos _ _).mp h))]
          unfold lookup_spec
          refine ⟨_, rfl, Or.inr ⟨mid, arr[mid], ?_, hget, by omega⟩⟩
          unfold to_ssize
          rw [if_pos (by omega)]
    · simp only [hle, if_false]
      unfold lookup_spec
      refine ⟨_, rfl, Or.inl ⟨rfl, ?_⟩⟩
      intro p hp
      obtain ⟨k, hk⟩ := List.mem_iff_getElem?.mp hp
      by_cases hkl : k < low
      · exact (hlo k p hkl hk).ne
      · exact (hhi k p (by omega) hk).ne'

/-- On a non-empty table sorted by value whose first value is not above `x`,
`binary_search` returns, and what it returns is a correct lookup of `x`. -/
theorem binary_search_spec (arr : List precalc) (x size : Nat)
    (hs : arr.Pairwise (fun p q => p.val ≤ q.val))
    (hsize : arr.length = size) (hpos : 1 ≤ size) (hlen : size ≤ 2 ^ 63)
    (hmin : ∀ p, arr[0]? = some p → p.val ≤ x) :
    ∃ r, binary_search arr x size = .ok r ∧ lookup_spec arr x r := by
  unfold binary_search
  rw [size_t_of_int_pred size (by omega) (by omega)]
  apply binary_search_loop_spec arr x hs (by omega) hmin (size + 2) 0 (size - 1)
    (by omega) (by omega) (by omega)
  · intro k p hk; omega
  · intro k p hk hp
    obtain ⟨hk2, _⟩ := List.getElem?_eq_some.mp hp
    omega

/-! ## Search loops -/

theorem read_at_natCast (arr : List precalc) (k : Nat) : read_at arr (k : Int) = arr[k]? := by
  simp [read_at]

theorem lookup_spec_neg_one {arr : List precalc} {x : Nat} (h : lookup_spec arr x (-1)) :
    ∀ p ∈ arr, p.val ≠ x := by
  rcases h with ⟨_, h⟩ | ⟨k, p, hk, _, _⟩
  · exact h
  · omega

/-- The single-threaded loop is the threaded loop with the flag never set. -/
theorem single_search_loop_eq (junk : Nat → Nat → Nat) (c : Nat) (arr : List precalc)
    (size e n : Nat) (l : List Nat) (st : Int × Nat) :
    Single.search_loop junk c arr size e n l st =
      Parallel.search_loop junk c arr size e n false l st := by
  induction l generalizing st with
  | nil => rfl
  | cons i rest ih =>
    unfold Single.search_loop Parallel.search_loop
    cases hbs : binary_search arr (lookup_value junk c e n (i + 1)) size with
    | error f => rfl
    | ok idx => simp only [ih]; simp

/-- Case analysis of the threaded loop with the flag unset, over the slots
`start ≤ i < start + len`, all of whose lookups stay inside the table: either
no slot matches and the loop ends with `idx = -1` after the last slot, or it
stops at the first matching slot with the index of a matching entry. -/
theorem par_search_loop_cases (junk : Nat → Nat → Nat) (c : Nat) (arr : List precalc)
    (size e n : Nat) :
    ∀ (len start : Nat) (st : Int × Nat), st.1 = -1 →
      (∀ i, start ≤ i → i < start + len →
        ∃ r, binary_search arr (lookup_value junk c e n (i + 1)) size = .ok r ∧
          lookup_spec arr (lookup_value junk c e n (i + 1)) r) →
      ((∀ i, start ≤ i → i < start + len → ¬ has_match junk c arr e n (i + 1)) ∧
        Parallel.search_loop junk c arr size e n false (List.range' start len) st =
          .ok (-1, if len = 0 then st.2 else start + len)) ∨
      (∃ (i k : Nat) (p : precalc), start ≤ i ∧ i < start + len ∧
        (∀ i', start ≤ i' → i' < i → ¬ has_match junk c arr e n (i' + 1)) ∧
        arr[k]? = some p ∧ p.val = lookup_value junk c e n (i + 1) ∧
        Parallel.search_loop junk c arr size e n false (List.range' start len) st =
          .ok ((k : Int), i + 1)) := by
  intro len
  induction len with
  | zero =>
    intro start st hst _
    left
    refine ⟨fun i h1 h2 => by omega, ?_⟩
    simp only [List.range'_zero, Parallel.search_loop, if_true]
    rw [← hst]
  | succ len ih =>
    intro start st hst hbs
    obtain ⟨r, hr, hspec⟩ := hbs start (le_refl _) (by omega)
    have hunf : Parallel.search_loop junk c arr size e n false (List.range' start (len + 1)) st =
        if r ≠ -1 ∨ false = true then Except.ok (r, start + 1)
        else Parallel.search_loop junk c arr size e n false (List.range' (start + 1) len)
          (r, start + 1) := by
      rw [List.range'_succ, Parallel.search_loop, hr]
    rcases hspec with ⟨hneg, habs⟩ | ⟨k, p, hk, hp, hv⟩
    · subst hneg
      have hno : ¬ has_match junk c arr e n (start + 1) := by
        rintro ⟨p, hp, hv⟩
        exact habs p hp hv
      rw [hunf]
      simp only [ne_eq, not_true_eq_false, Bool.false_eq_true, or_self, if_false]
      rcases ih (start + 1) (-1, start + 1) rfl
          (fun i h1 h2 => hbs i (by omega) (by omega)) with ⟨hnone, hres⟩ | ⟨i, k, p, h1, h2, h3, h4, h5, h6⟩
      · left
        refine ⟨?_, ?_⟩
        · intro i h1 h2
          rcases Nat.eq_or_lt_of_le h1 with h | h
          · subst h; exact hno
          · exact hnone i (by omega) (by omega)
        · rw [hres]
          by_cases hl : len = 0
          · simp [hl]
          · simp [hl]; omega
      · right
        refine ⟨i, k, p, by omega, by omega, ?_, h4, h5, h6⟩
        intro i' hi1 hi2
        rcases Nat.eq_or_lt_of_le hi1 with h | h
        · subst h; exact hno
        · exact h3 i' (by omega) hi2
    · right
      refine ⟨start, k, p, le_refl _, by omega, fun i' h1 h2 => by omega, hp, hv, ?_⟩
      rw [hunf, hk]
      have : ((k : Int) ≠ -1) := by omega
      simp [this]

/-! ## Claims on lookup and table size -/

/-- C3 (lookup correctness), evaluated where the code departs from it: on the
sorted table `[(1, 1), (2, 8)]` the lookup of `0`, a value below the first
entry, does not return `-1`.  At `mid = 0` the step `high = mid - 1` wraps to
`2 ^ 64 - 1` and the next iteration reads `arr[2 ^ 63 - 1]`, outside the table.
The same happens on the empty table, where `size - 1` wraps. -/
theorem binary_search_below_first_entry :
    binary_search [⟨1, 1⟩, ⟨2, 8⟩] 0 2 = .error .oob ∧
    binary_search_loop [⟨1, 1⟩, ⟨2, 8⟩] 0 1 0 (2 ^ 64 - 1) = .error .oob ∧
    binary_search [] 0 0 = .error .oob := by
  decide

/-- C7 (table length), counterexample: for `L = 1` the program computes the
table size `1`, while `2 ^ ceil(L / 2) = 2`; for `L = 13` it computes `64`,
not `128`. -/
theorem table_size_not_ceil :
    table_size 1 = .ok 1 ∧ table_size 1 ≠ .ok (2 ^ ((1 + 1) / 2)) ∧
    table_size 13 = .ok 64 ∧ table_size 13 ≠ .ok (2 ^ ((13 + 1) / 2)) := by
  decide

/-- C7 (table length), amended: for every bit bound `L` whose shift count
`L / 2` is below the width 64, `main` computes the table size
`2 ^ floor(L / 2)`; this is `2 ^ ceil(L / 2)` when `L` is even. -/
theorem table_size_floor (L : Nat) (hL : L / 2 < 64) :
    table_size L = .ok (2 ^ (L / 2)) ∧
    (L % 2 = 0 → table_size L = .ok (2 ^ ((L + 1) / 2))) := by
  unfold table_size
  rw [if_pos hL]
  refine ⟨rfl, fun h => ?_⟩
  have : (L + 1) / 2 = L / 2 := by omega
  rw [this]

theorem table_size_floor_witness :
    (12 / 2 < 64) ∧ (table_size 12 = .ok (2 ^ (12 / 2)) ∧
      (12 % 2 = 0 → table_size 12 = .ok (2 ^ ((12 + 1) / 2)))) :=
  ⟨by decide, table_size_floor 12 (by decide)⟩

/-! ## Slices of the workers -/

/-- Without `size_t` overflow the slice length is `ceil(size / W)`. -/
theorem slice_range_eq (W size : Nat) (hfit : size + W ≤ 2 ^ 64) :
    Parallel.slice_range W size = (size + W - 1) / W := by
  unfold Parallel.slice_range
  rw [Nat.mod_eq_of_lt (by rw [SIZE_T_eq]; omega)]

theorem slice_range_bounds (W size : Nat) (hW : 1 ≤ W) :
    size ≤ W * ((size + W - 1) / W) ∧ W * ((size + W - 1) / W) ≤ size + W - 1 := by
  have h1 := Nat.div_add_mod (size + W - 1) W
  have h2 := Nat.mod_lt (size + W - 1) (show 0 < W by omega)
  constructor
  · omega
  · omega

/-- Without `size_t` overflow worker `i < W` receives the slice
`[i * range, min((i + 1) * range, size))`. -/
theorem build_args_eq (W size i : Nat) (hfit : size + W ≤ 2 ^ 64) (hW : 1 ≤ W) (hi : i < W) :
    Parallel.build_args W size i =
      (i * ((size + W - 1) / W), min ((i + 1) * ((size + W - 1) / W)) size) := by
  unfold Parallel.build_args
  rw [slice_range_eq W size hfit]
  have hb := (slice_range_bounds W size hW).2
  have h1 : (i + 1) * ((size + W - 1) / W) ≤ W * ((size + W - 1) / W) :=
    Nat.mul_le_mul_right _ (by omega)
  have h0 : i * ((size + W - 1) / W) ≤ (i + 1) * ((size + W - 1) / W) :=
    Nat.mul_le_mul_right _ (by omega)
  rw [Nat.mod_eq_of_lt (by rw [SIZE_T_eq]; omega), Nat.mod_eq_of_lt (by rw [SIZE_T_eq]; omega)]

theorem mitm_args_eq_build_args (W size i : Nat) :
    Parallel.mitm_args W size i = Parallel.build_args W size i := rfl

/-- Every slot below `size` lies in the slice of the worker `k / range`. -/
theorem slice_cover (W size k : Nat) (hfit : size + W ≤ 2 ^ 64) (hW : 1 ≤ W) (hk : k < size) :
    ∃ i, i < W ∧ (Parallel.build_args W size i).1 ≤ k ∧ k < (Parallel.build_args W size i).2 := by
  have hb := (slice_range_bounds W size hW).1
  have hR : 0 < (size + W - 1) / W := by
    rcases Nat.eq_zero_or_pos ((size + W - 1) / W) with h | h
    · rw [h] at hb; omega
    · exact h
  have hiW : k / ((size + W - 1) / W) < W := by
    rw [Nat.div_lt_iff_lt_mul hR]; omega
  refine ⟨k / ((size + W - 1) / W), hiW, ?_⟩
  rw [build_args_eq W size _ hfit hW hiW]
  have h1 := Nat.div_add_mod k ((size + W - 1) / W)
  have h2 := Nat.mod_lt k hR
  simp only []
  constructor
  · rw [Nat.mul_comm]; omega
  · rw [Nat.lt_min, Nat.add_mul, Nat.mul_comm]; omega

/-- A slot lies in the slice of at most one worker. -/
theorem slice_unique (W size k i j : Nat) (hfit : size + W ≤ 2 ^ 64) (hW : 1 ≤ W)
    (hi : i < W) (hj : j < W)
    (hki : (Parallel.build_args W size i).1 ≤ k ∧ k < (Parallel.build_args W size i).2)
    (hkj : (Parallel.build_args W size j).1 ≤ k ∧ k < (Parallel.build_args W size j).2) :
    i = j := by
  rw [build_args_eq W size _ hfit hW hi] at hki
  rw [build_args_eq W size _ hfit hW hj] at hkj
  simp only [Nat.lt_min] at hki hkj
  by_contra hne
  rcases Nat.lt_or_gt_of_ne hne with h | h
  · have : (i + 1) * ((size + W - 1) / W) ≤ j * ((size + W - 1) / W) :=
      Nat.mul_le_mul_right _ h
    omega
  · have : (j + 1) * ((size + W - 1) / W) ≤ i * ((size + W - 1) / W) :=
      Nat.mul_le_mul_right _ h
    omega

theorem slice_end_le (W size i : Nat) : (Parallel.build_args W size i).2 ≤ size := by
  unfold Parallel.build_args
  exact Nat.min_le_right _ _

/-- C10 (partition): without `size_t` overflow in `table_size + NUM_THREADS - 1`
(as for every table `main` can allocate and every `int` worker count), worker
`i < W` receives `[i * range, min((i + 1) * range, size))` with
`range = ceil(size / W)`; every slot below `size` lies in the slice of exactly
one worker, no slice holds a slot `≥ size`, the slices follow one another from
slot `0` up to `size`, and the search phase uses the slices of the build
phase. -/
theorem slices_partition (W size : Nat) (hW : 1 ≤ W) (hfit : size + W ≤ 2 ^ 64) :
    (size ≤ W * ((size + W - 1) / W) ∧ W * ((size + W - 1) / W) < size + W) ∧
    (∀ i, i < W → Parallel.build_args W size i =
      (i * ((size + W - 1) / W), min ((i + 1) * ((size + W - 1) / W)) size)) ∧
    (∀ k, k < size → ∃! i, i < W ∧
      (Parallel.build_args W size i).1 ≤ k ∧ k < (Parallel.build_args W size i).2) ∧
    (∀ i k, (Parallel.build_args W size i).1 ≤ k → k < (Parallel.build_args W size i).2 →
      k < size) ∧
    (Parallel.build_args W size 0).1 = 0 ∧
    (∀ i, i + 1 < W → (Parallel.build_args W size i).2 =
      min (Parallel.build_args W size (i + 1)).1 size) ∧
    (Parallel.build_args W size (W - 1)).2 = size ∧
    (∀ i, Parallel.mitm_args W size i = Parallel.build_args W size i) := by
  have hb := slice_range_bounds W size hW
  refine ⟨⟨hb.1, by omega⟩, fun i hi => build_args_eq W size i hfit hW hi, ?_, ?_, ?_, ?_, ?_,
    fun i => rfl⟩
  · intro k hk
    obtain ⟨i, hi, h1, h2⟩ := slice_cover W size k hfit hW hk
    refine ⟨i, ⟨hi, h1, h2⟩, ?_⟩
    rintro j ⟨hj, hj1, hj2⟩
    exact slice_unique W size k j i hfit hW hj hi ⟨hj1, hj2⟩ ⟨h1, h2⟩
  · intro i k _ h2
    exact lt_of_lt_of_le h2 (slice_end_le W size i)
  · rw [build_args_eq W size 0 hfit hW (by omega)]
    simp
  · intro i hi
    rw [build_args_eq W size i hfit hW (by omega), build_args_eq W size (i + 1) hfit hW hi]
  · rw [build_args_eq W size (W - 1) hfit hW (by omega)]
    have : W - 1 + 1 = W := by omega
    simp only [this]
    exact Nat.min_eq_right hb.1

theorem slices_partition_witness :
    (1 ≤ 10 ∧ 64 + 10 ≤ 2 ^ 64) ∧
    ((64 ≤ 10 * ((64 + 10 - 1) / 10) ∧ 10 * ((64 + 10 - 1) / 10) < 64 + 10) ∧
    (∀ i, i < 10 → Parallel.build_args 10 64 i =
      (i * ((64 + 10 - 1) / 10), min ((i + 1) * ((64 + 10 - 1) / 10)) 64)) ∧
    (∀ k, k < 64 → ∃! i, i < 10 ∧
      (Parallel.build_args 10 64 i).1 ≤ k ∧ k < (Parallel.build_args 10 64 i).2) ∧
    (∀ i k, (Parallel.build_args 10 64 i).1 ≤ k → k < (Parallel.build_args 10 64 i).2 →
      k < 64) ∧
    (Parallel.build_args 10 64 0).1 = 0 ∧
    (∀ i, i + 1 < 10 → (Parallel.build_args 10 64 i).2 =
      min (Parallel.build_args 10 64 (i + 1)).1 64) ∧
    (Parallel.build_args 10 64 (10 - 1)).2 = 64 ∧
    (∀ i, Parallel.mitm_args 10 64 i = Parallel.build_args 10 64 i)) :=
  ⟨⟨by decide, by norm_num⟩, slices_partition 10 64 (by decide) (by norm_num)⟩

/-! ## Build phase -/

theorem par_build_table_length (e n : Nat) :
    ∀ (len start : Nat) (arr : List precalc),
      (Parallel.build_table arr start (start + len) e n).length = arr.length := by
  intro len
  induction len with
  | zero => intro start arr; simp [Parallel.build_table]
  | succ len ih =>
    intro start arr
    have h := ih (start + 1) (arr.set start (entry e n start))
    unfold Parallel.build_table at h ⊢
    have e1 : start + (len + 1) - start = len + 1 := by omega
    have e2 : start + 1 + len - (start + 1) = len := by omega
    rw [e1, List.range'_succ, List.foldl_cons]
    rw [e2] at h
    unfold entry at h
    rw [h, List.length_set]

/-- Slot-wise description of the threaded `build_table`: the slots of
`[start, start + len)` inside the array hold their entry, the others are
untouched. -/
theorem par_build_table_getElem? (e n : Nat) :
    ∀ (len start : Nat) (arr : List precalc) (k : Nat),
      (Parallel.build_table arr start (start + len) e n)[k]? =
        if start ≤ k ∧ k < start + len ∧ k < arr.length then some (entry e n k) else arr[k]? := by
  intro len
  induction len with
  | zero =>
    intro start arr k
    have h : ¬ (start ≤ k ∧ k < start + 0 ∧ k < arr.length) := by omega
    rw [if_neg h]
    simp [Parallel.build_table]
  | succ len ih =>
    intro start arr k
    have h := ih (start + 1) (arr.set start (entry e n start)) k
    unfold Parallel.build_table at h ⊢
    have e1 : start + (len + 1) - start = len + 1 := by omega
    have e2 : start + 1 + len - (start + 1) = len := by omega
    rw [e1, List.range'_succ, List.foldl_cons]
    rw [e2] at h
    unfold entry at h
    rw [h, List.length_set]
    by_cases hk : start = k
    · subst hk
      by_cases hl : start < arr.length
      · have c1 : ¬ (start + 1 ≤ start ∧ start < start + 1 + len ∧ start < arr.length) := by omega
        have c2 : start ≤ start ∧ start < start + (len + 1) ∧ start < arr.length := by omega
        rw [if_neg c1, if_pos c2, List.getElem?_set_self hl]
        rfl
      · have c1 : ¬ (start + 1 ≤ start ∧ start < start + 1 + len ∧ start < arr.length) := by omega
        have c2 : ¬ (start ≤ start ∧ start < start + (len + 1) ∧ start < arr.length) := by omega
        rw [if_neg c1, if_neg c2, List.getElem?_eq_none (by rw [List.length_set]; omega),
          List.getElem?_eq_none (by omega)]
    · rw [List.getElem?_set_ne hk]
      by_cases hc : start + 1 ≤ k ∧ k < start + 1 + len ∧ k < arr.length
      · rw [if_pos hc, if_pos (by omega)]
        rfl
      · rw [if_neg hc, if_neg (by omega)]

theorem par_build_table_empty (arr : List precalc) (start end_ e n : Nat) (h : end_ ≤ start) :
    Parallel.build_table arr start end_ e n = arr := by
  unfold Parallel.build_table
  have : end_ - start = 0 := by omega
  rw [this]; rfl

theorem par_build_table_getElem?' (arr : List precalc) (start end_ e n k : Nat) :
    (Parallel.build_table arr start end_ e n)[k]? =
      if start ≤ k ∧ k < end_ ∧ k < arr.length then some (entry e n k) else arr[k]? := by
  by_cases h : start ≤ end_
  · obtain ⟨len, rfl⟩ := Nat.exists_eq_add_of_le h
    exact par_build_table_getElem? e n len start arr k
  · rw [par_build_table_empty arr start end_ e n (by omega), if_neg (by omega)]

theorem par_build_table_length' (arr : List precalc) (start end_ e n : Nat) :
    (Parallel.build_table arr start end_ e n).length = arr.length := by
  by_cases h : start ≤ end_
  · obtain ⟨len, rfl⟩ := Nat.exists_eq_add_of_le h
    exact par_build_table_length e n len start arr
  · rw [par_build_table_empty arr start end_ e n (by omega)]

theorem single_build_table_eq (arr : List precalc) (size e n : Nat) :
    Single.build_table arr size e n = Parallel.build_table arr 0 size e n := by
  unfold Single.build_table Parallel.build_table
  rw [List.range_eq_range']
  rfl

theorem build_phase_length (W size e n : Nat) (order : List Nat) :
    ∀ table : List precalc,
      (Parallel.build_phase table W size e n order).length = table.length := by
  induction order with
  | nil => intro table; rfl
  | cons i rest ih =>
    intro table
    unfold Parallel.build_phase at ih ⊢
    rw [List.foldl_cons, ih, par_build_table_length']

/-- Slot-wise description of the build phase for any order of the workers: a
slot inside the array that lies in the slice of some worker holds its entry,
the others are untouched. -/
theorem build_phase_getElem? (W size e n : Nat) (order : List Nat) :
    ∀ (table : List precalc) (k : Nat),
      (Parallel.build_phase table W size e n order)[k]? =
        if k < table.length ∧ ∃ i ∈ order,
            (Parallel.build_args W size i).1 ≤ k ∧ k < (Parallel.build_args W size i).2
        then some (entry e n k) else table[k]? := by
  induction order with
  | nil =>
    intro table k
    simp [Parallel.build_phase]
  | cons i rest ih =>
    intro table k
    have h := ih (Parallel.build_table table (Parallel.build_args W size i).1
      (Parallel.build_args W size i).2 e n) k
    unfold Parallel.build_phase at h ⊢
    rw [List.foldl_cons, h, par_build_table_length', par_build_table_getElem?']
    by_cases hk : k < table.length
    · by_cases hi : (Parallel.build_args W size i).1 ≤ k ∧ k < (Parallel.build_args W size i).2
      · have c2 : k < table.length ∧ ∃ j ∈ i :: rest,
            (Parallel.build_args W size j).1 ≤ k ∧ k < (Parallel.build_args W size j).2 :=
          ⟨hk, i, List.mem_cons_self _ _, hi⟩
        have c1 : (Parallel.build_args W size i).1 ≤ k ∧
            k < (Parallel.build_args W size i).2 ∧ k < table.length := ⟨hi.1, hi.2, hk⟩
        rw [if_pos c2, if_pos c1]
        split_ifs <;> rfl
      · have c3 : ¬ ((Parallel.build_args W size i).1 ≤ k ∧
            k < (Parallel.build_args W size i).2 ∧ k < table.length) := fun h => hi ⟨h.1, h.2.1⟩
        rw [if_neg c3]
        by_cases hr : ∃ j ∈ rest,
            (Parallel.build_args W size j).1 ≤ k ∧ k < (Parallel.build_args W size j).2
        · obtain ⟨j, hj, hjk⟩ := hr
          have c5 : k < table.length ∧ ∃ j ∈ rest,
              (Parallel.build_args W size j).1 ≤ k ∧ k < (Parallel.build_args W size j).2 :=
            ⟨hk, j, hj, hjk⟩
          have c6 : k < table.length ∧ ∃ j ∈ i :: rest,
              (Parallel.build_args W size j).1 ≤ k ∧ k < (Parallel.build_args W size j).2 :=
            ⟨hk, j, List.mem_cons_of_mem _ hj, hjk⟩
          rw [if_pos c5, if_pos c6]
        · have c4 : ¬ (k < table.length ∧ ∃ j ∈ i :: rest,
              (Parallel.build_args W size j).1 ≤ k ∧ k < (Parallel.build_args W size j).2) := by
            rintro ⟨_, j, hj, hjk⟩
            rcases List.mem_cons.mp hj with rfl | hj
            · exact hi hjk
            · exact hr ⟨j, hj, hjk⟩
          have c7 : ¬ (k < table.length ∧ ∃ j ∈ rest,
              (Parallel.build_args W size j).1 ≤ k ∧ k < (Parallel.build_args W size j).2) :=
            fun h => hr h.2
          rw [if_neg c7, if_neg c4]
    · have c8 : ¬ (k < table.length ∧ ∃ j ∈ rest,
          (Parallel.build_args W size j).1 ≤ k ∧ k < (Parallel.build_args W size j).2) :=
        fun h => hk h.1
      have c9 : ¬ ((Parallel.build_args W size i).1 ≤ k ∧
          k < (Parallel.build_args W size i).2 ∧ k < table.length) := fun h => hk h.2.2
      have c10 : ¬ (k < table.length ∧ ∃ j ∈ i :: rest,
          (Parallel.build_args W size j).1 ≤ k ∧ k < (Parallel.build_args W size j).2) :=
        fun h => hk h.1
      rw [if_neg c8, if_neg c9, if_neg c10]

theorem built_getElem? (size e n k : Nat) :
    (built size e n)[k]? = if k < size then some (entry e n k) else none := by
  unfold built
  by_cases hk : k < size
  · rw [if_pos hk, List.getElem?_map, List.getElem?_range hk]; rfl
  · rw [if_neg hk, List.getElem?_eq_none (by simp; omega)]

theorem single_build_table_built (init : List precalc) (size e n : Nat)
    (hlen : init.length = size) : Single.build_table init size e n = built size e n := by
  apply List.ext_getElem?
  intro k
  rw [single_build_table_eq, par_build_table_getElem?', built_getElem?]
  by_cases hk : k < size
  · rw [if_pos ⟨Nat.zero_le _, hk, by omega⟩, if_pos hk]
  · rw [if_neg (fun h => hk h.2.1), if_neg hk, List.getElem?_eq_none (by omega)]

theorem build_phase_built (init : List precalc) (W size e n : Nat) (order : List Nat)
    (hlen : init.length = size) (hW : 1 ≤ W) (hfit : size + W ≤ 2 ^ 64)
    (horder : order.Perm (List.range W)) :
    Parallel.build_phase init W size e n order = built size e n := by
  apply List.ext_getElem?
  intro k
  rw [build_phase_getElem?, built_getElem?]
  by_cases hk : k < size
  · obtain ⟨i, hi, h1, h2⟩ := slice_cover W size k hfit hW hk
    have hmem : i ∈ order := horder.mem_iff.mpr (List.mem_range.mpr hi)
    rw [if_pos ⟨by omega, i, hmem, h1, h2⟩, if_pos hk]
  · rw [if_neg (fun h => hk (by omega)), if_neg hk, List.getElem?_eq_none (by omega)]

/-- C5 (table completeness): after the build phase, single-threaded or by the
workers on their slices in any order, slot `k < size` holds index `k + 1` and
value `(k + 1) ^ e mod N`, nothing else is in the table, and the indices of
the table are `1, ..., size`, each once.  The worker count is positive and
`table_size + NUM_THREADS - 1` does not overflow `size_t` (as in `main`). -/
theorem build_phase_complete (init : List precalc) (W size e n : Nat) (order : List Nat)
    (hlen : init.length = size) (hW : 1 ≤ W) (hfit : size + W ≤ 2 ^ 64)
    (horder : order.Perm (List.range W)) :
    (∀ k, k < size →
      (Single.build_table init size e n)[k]? = some ⟨k + 1, (k + 1) ^ e % n⟩ ∧
      (Parallel.build_phase init W size e n order)[k]? = some ⟨k + 1, (k + 1) ^ e % n⟩) ∧
    (Single.build_table init size e n).length = size ∧
    (Parallel.build_phase init W size e n order).length = size ∧
    (Single.build_table init size e n).map precalc.i = (List.range size).map (· + 1) ∧
    (Parallel.build_phase init W size e n order).map precalc.i =
      (List.range size).map (· + 1) := by
  rw [single_build_table_built init size e n hlen,
    build_phase_built init W size e n order hlen hW hfit horder]
  refine ⟨?_, ?_, ?_, ?_, ?_⟩
  · intro k hk
    rw [built_getElem?, if_pos hk]
    exact ⟨rfl, rfl⟩
  · simp [built]
  · simp [built]
  · simp [built, entry, Function.comp_def]
  · simp [built, entry, Function.comp_def]

theorem build_phase_complete_witness :
    ((fresh_table 4).length = 4 ∧ 1 ≤ 3 ∧ 4 + 3 ≤ 2 ^ 64 ∧
      [2, 0, 1].Perm (List.range 3)) ∧
    ((∀ k, k < 4 →
      (Single.build_table (fresh_table 4) 4 3 11)[k]? = some ⟨k + 1, (k + 1) ^ 3 % 11⟩ ∧
      (Parallel.build_phase (fresh_table 4) 3 4 3 11 [2, 0, 1])[k]? =
        some ⟨k + 1, (k + 1) ^ 3 % 11⟩) ∧
    (Single.build_table (fresh_table 4) 4 3 11).length = 4 ∧
    (Parallel.build_phase (fresh_table 4) 3 4 3 11 [2, 0, 1]).length = 4 ∧
    (Single.build_table (fresh_table 4) 4 3 11).map precalc.i = (List.range 4).map (· + 1) ∧
    (Parallel.build_phase (fresh_table 4) 3 4 3 11 [2, 0, 1]).map precalc.i =
      (List.range 4).map (· + 1)) :=
  ⟨⟨by decide, by decide, by norm_num, by decide⟩,
    build_phase_complete (fresh_table 4) 3 4 3 11 [2, 0, 1] (by decide) (by decide)
      (by norm_num) (by decide)⟩

/-! ## Sort phase -/

theorem qsort_insert_eq_orderedInsert {α : Type} (cmp : α → α → Int) (a : α) (l : List α) :
    qsort_insert cmp a l = List.orderedInsert (fun x y => cmp x y ≤ 0) a l := by
  induction l with
  | nil => rfl
  | cons b l ih => simp only [qsort_insert, List.orderedInsert, ih]

theorem qsort_eq_insertionSort {α : Type} (cmp : α → α → Int) (l : List α) :
    qsort cmp l = List.insertionSort (fun x y => cmp x y ≤ 0) l := by
  induction l with
  | nil => rfl
  | cons b l ih =>
    have : qsort cmp (b :: l) = qsort_insert cmp b (qsort cmp l) := rfl
    rw [this, ih, qsort_insert_eq_orderedInsert]
    rfl

theorem qsort_perm {α : Type} (cmp : α → α → Int) (l : List α) : (qsort cmp l).Perm l := by
  rw [qsort_eq_insertionSort]
  exact List.perm_insertionSort _ l

/-- The comparator `compare_precalc` orders by the `val` field alone. -/
theorem compare_precalc_nonpos (p q : precalc) : compare_precalc p q ≤ 0 ↔ p.val ≤ q.val :=
  mpz_cmp_nonpos p.val q.val

/-- The result of `qsort` with `compare_precalc` is non-decreasing by value. -/
theorem qsort_sorted (l : List precalc) :
    (qsort compare_precalc l).Pairwise (fun p q => p.val ≤ q.val) := by
  rw [qsort_eq_insertionSort]
  haveI : IsTotal precalc (fun x y => compare_precalc x y ≤ 0) :=
    ⟨fun a b => by simp only [compare_precalc_nonpos]; exact Nat.le_total _ _⟩
  haveI : IsTrans precalc (fun x y => compare_precalc x y ≤ 0) :=
    ⟨fun a b c => by simp only [compare_precalc_nonpos]; exact Nat.le_trans⟩
  have h := List.sorted_insertionSort (fun x y => compare_precalc x y ≤ 0) l
  exact List.Pairwise.imp (fun {a b} hab => (compare_precalc_nonpos a b).mp hab) h

theorem mem_built (size e n : Nat) (p : precalc) :
    p ∈ built size e n ↔ ∃ k, k < size ∧ p = entry e n k := by
  unfold built
  simp only [List.mem_map, List.mem_range]
  constructor
  · rintro ⟨k, hk, rfl⟩; exact ⟨k, hk, rfl⟩
  · rintro ⟨k, hk, rfl⟩; exact ⟨k, hk, rfl⟩

/-- C6 (table ordering): after `qsort` with `compare_precalc`, which compares
the `val` fields only, adjacent entries are in non-decreasing order of value,
the table is a permutation of the built one, its indices are `1, ..., size`,
each once, and every entry still has `val = i ^ e mod N`. -/
theorem sort_phase_ordered (init : List precalc) (size e n : Nat) (hlen : init.length = size) :
    (∀ p q, compare_precalc p q = mpz_cmp p.val q.val) ∧
    (∀ k p q, (qsort compare_precalc (Single.build_table init size e n))[k]? = some p →
      (qsort compare_precalc (Single.build_table init size e n))[k + 1]? = some q →
      p.val ≤ q.val) ∧
    (qsort compare_precalc (Single.build_table init size e n)).Perm
      (Single.build_table init size e n) ∧
    ((qsort compare_precalc (Single.build_table init size e n)).map precalc.i).Perm
      ((List.range size).map (· + 1)) ∧
    (∀ p ∈ qsort compare_precalc (Single.build_table init size e n), p.val = p.i ^ e % n) ∧
    (qsort compare_precalc (Single.build_table init size e n)).length = size := by
  have hperm := qsort_perm compare_precalc (Single.build_table init size e n)
  have hb := single_build_table_built init size e n hlen
  refine ⟨fun p q => rfl, ?_, hperm, ?_, ?_, ?_⟩
  · intro k p q hp hq
    exact sorted_getElem? (qsort_sorted _) (Nat.le_succ k) hp hq
  · have h1 := hperm.map precalc.i
    rw [hb] at h1
    have h2 : (built size e n).map precalc.i = (List.range size).map (· + 1) := by
      simp [built, entry, Function.comp_def]
    rw [hb, ← h2]
    exact h1
  · intro p hp
    have hp2 := hperm.mem_iff.mp hp
    rw [hb, mem_built] at hp2
    obtain ⟨k, _, rfl⟩ := hp2
    rfl
  · rw [hperm.length_eq, hb]
    simp [built]

theorem sort_phase_ordered_witness :
    ((fresh_table 4).length = 4) ∧
    ((∀ p q, compare_precalc p q = mpz_cmp p.val q.val) ∧
    (∀ k p q, (qsort compare_precalc (Single.build_table (fresh_table 4) 4 3 11))[k]? = some p →
      (qsort compare_precalc (Single.build_table (fresh_table 4) 4 3 11))[k + 1]? = some q →
      p.val ≤ q.val) ∧
    (qsort compare_precalc (Single.build_table (fresh_table 4) 4 3 11)).Perm
      (Single.build_table (fresh_table 4) 4 3 11) ∧
    ((qsort compare_precalc (Single.build_table (fresh_table 4) 4 3 11)).map precalc.i).Perm
      ((List.range 4).map (· + 1)) ∧
    (∀ p ∈ qsort compare_precalc (Single.build_table (fresh_table 4) 4 3 11),
      p.val = p.i ^ 3 % 11) ∧
    (qsort compare_precalc (Single.build_table (fresh_table 4) 4 3 11)).length = 4) :=
  ⟨by decide, sort_phase_ordered (fresh_table 4) 4 3 11 (by decide)⟩

/-! ## Arithmetic of the lookup value -/

/-- For an invertible `j ^ e mod n` the lookup value `s` satisfies
`s * j ^ e ≡ c (mod n)`. -/
theorem lookup_value_mul (junk : Nat → Nat → Nat) (c e n j : Nat) (hn : 0 < n)
    (hg : Nat.gcd (j ^ e % n) n = 1) :
    lookup_value junk c e n j * (j ^ e % n) % n = c % n := by
  have hinv := (mpz_invert_spec junk (j ^ e % n) n hn hg).2
  unfold lookup_value mpz_mod mpz_mul mpz_powm
  have h1 : (j ^ e % n * mpz_invert junk (j ^ e % n) n) ≡ 1 [MOD n] := by
    unfold Nat.ModEq; rw [hinv]
  have h2 : c * mpz_invert junk (j ^ e % n) n % n * (j ^ e % n) ≡ c * 1 [MOD n] := by
    calc c * mpz_invert junk (j ^ e % n) n % n * (j ^ e % n)
        ≡ c * mpz_invert junk (j ^ e % n) n * (j ^ e % n) [MOD n] :=
          Nat.ModEq.mul_right _ (Nat.mod_modEq _ _)
      _ = c * (j ^ e % n * mpz_invert junk (j ^ e % n) n) := by ring
      _ ≡ c * 1 [MOD n] := Nat.ModEq.mul_left _ h1
  rw [mul_one] at h2
  exact h2

/-- Soundness of a match: an entry `(i, i ^ e mod n)` whose value is the lookup
value of candidate `j` gives a product with `(j * i) ^ e ≡ c (mod n)`. -/
theorem match_sound (junk : Nat → Nat → Nat) (c e n j i : Nat) (hn : 0 < n)
    (hg : Nat.gcd (j ^ e % n) n = 1) (hv : i ^ e % n = lookup_value junk c e n j) :
    (j * i) ^ e % n = c % n := by
  have h := lookup_value_mul junk c e n j hn hg
  rw [← hv] at h
  have : (j * i) ^ e ≡ i ^ e % n * (j ^ e % n) [MOD n] := by
    rw [mul_pow, mul_comm]
    exact Nat.ModEq.mul (Nat.mod_modEq _ _).symm (Nat.mod_modEq _ _).symm
  exact this.trans h

/-- Completeness of a match: for `c = (i * j) ^ e mod n` the lookup value of the
candidate `j` is `i ^ e mod n`. -/
theorem match_complete (junk : Nat → Nat → Nat) (e n i j : Nat) (hn : 0 < n)
    (hg : Nat.gcd (j ^ e % n) n = 1) :
    lookup_value junk ((i * j) ^ e % n) e n j = i ^ e % n := by
  have hinv := (mpz_invert_spec junk (j ^ e % n) n hn hg).2
  unfold lookup_value mpz_mod mpz_mul mpz_powm
  have h1 : (j ^ e % n * mpz_invert junk (j ^ e % n) n) ≡ 1 [MOD n] := by
    unfold Nat.ModEq; rw [hinv]
  have h2 : (i * j) ^ e % n * mpz_invert junk (j ^ e % n) n ≡ i ^ e * 1 [MOD n] := by
    calc (i * j) ^ e % n * mpz_invert junk (j ^ e % n) n
        ≡ (i * j) ^ e * mpz_invert junk (j ^ e % n) n [MOD n] :=
          Nat.ModEq.mul_right _ (Nat.mod_modEq _ _)
      _ = i ^ e * (j ^ e * mpz_invert junk (j ^ e % n) n) := by rw [mul_pow]; ring
      _ ≡ i ^ e * (j ^ e % n * mpz_invert junk (j ^ e % n) n) [MOD n] :=
          Nat.ModEq.mul_left _ (Nat.ModEq.mul_right _ (Nat.mod_modEq _ _).symm)
      _ ≡ i ^ e * 1 [MOD n] := Nat.ModEq.mul_left _ h1
  rw [mul_one] at h2
  exact h2

/-- A lookup value is at least `1 mod n` when `c` is not a multiple of `n`
(or `n = 1`) and the candidate is invertible. -/
theorem lookup_value_ge (junk : Nat → Nat → Nat) (c e n j : Nat) (hn : 0 < n)
    (hc : c % n ≠ 0 ∨ n = 1) (hg : Nat.gcd (j ^ e % n) n = 1) :
    1 % n ≤ lookup_value junk c e n j := by
  rcases hc with hc | h1
  · have h := lookup_value_mul junk c e n j hn hg
    have hs : lookup_value junk c e n j ≠ 0 := by
      intro h0
      rw [h0, zero_mul, Nat.zero_mod] at h
      exact hc h.symm
    have : 1 % n ≤ 1 := Nat.mod_le 1 n
    omega
  · subst h1; simp

/-- The first entry of a sorted permutation of a built table of at least one
entry has a value of at most `1 mod n`, the value of index `1`. -/
theorem sorted_first_le (T : List precalc) (size e n : Nat)
    (hs : T.Pairwise (fun p q => p.val ≤ q.val)) (hperm : T.Perm (built size e n))
    (hpos : 1 ≤ size) (p : precalc) (hp : T[0]? = some p) : p.val ≤ 1 % n := by
  have hmem : entry e n 0 ∈ T := hperm.mem_iff.mpr ((mem_built size e n _).mpr ⟨0, hpos, rfl⟩)
  obtain ⟨k, hk⟩ := List.mem_iff_getElem?.mp hmem
  have := sorted_getElem? hs (Nat.zero_le k) hp hk
  simpa [entry, mpz_powm] using this

/-! ## The searcher under its preconditions -/

theorem searchable_lookup {junk : Nat → Nat → Nat} {c : Nat} {arr : List precalc}
    {size e n : Nat} (h : searchable junk c arr size e n) (i : Nat) (hi : i < size) :
    ∃ r, binary_search arr (lookup_value junk c e n (i + 1)) size = .ok r ∧
      lookup_spec arr (lookup_value junk c e n (i + 1)) r := by
  obtain ⟨hs, hlen, hpos, hmax, hmin⟩ := h
  exact binary_search_spec arr _ size hs hlen hpos hmax
    (fun p hp => hmin (i + 1) p (by omega) (by omega) hp)

/-- Threaded searcher with the flag unset, on a slice inside the table: it
returns `1` and leaves `res` and the flag alone when no candidate of the slice
has a match; otherwise it returns `0`, sets the flag and stores `j * i` for the
first matching candidate `j` and an entry `(i, _)` matching it. -/
theorem par_mitm_unset (junk : Nat → Nat → Nat) (c : Nat) (arr : List precalc)
    (size start end_ e n res : Nat) (h : searchable junk c arr size e n) (hend : end_ ≤ size) :
    ((∀ i, start ≤ i → i < end_ → ¬ has_match junk c arr e n (i + 1)) ∧
      Parallel.rsa_meet_in_the_middle junk c arr size start end_ e n false res =
        .ok (1, res, false)) ∨
    (∃ (i : Nat) (p : precalc), start ≤ i ∧ i < end_ ∧
      (∀ i', start ≤ i' → i' < i → ¬ has_match junk c arr e n (i' + 1)) ∧
      p ∈ arr ∧ p.val = lookup_value junk c e n (i + 1) ∧
      Parallel.rsa_meet_in_the_middle junk c arr size start end_ e n false res =
        .ok (0, (i + 1) * p.i, true)) := by
  have hcases := par_search_loop_cases junk c arr size e n (end_ - start) start (-1, 0) rfl
    (fun i h1 h2 => searchable_lookup h i (by omega))
  rcases hcases with ⟨hnone, hres⟩ | ⟨i, k, p, h1, h2, h3, h4, h5, h6⟩
  · left
    refine ⟨fun i h1 h2 => hnone i h1 (by omega), ?_⟩
    unfold Parallel.rsa_meet_in_the_middle
    rw [hres]
    simp
  · right
    refine ⟨i, p, h1, by omega, h3, List.mem_iff_getElem?.mpr ⟨k, h4⟩, h5, ?_⟩
    unfold Parallel.rsa_meet_in_the_middle
    rw [h6]
    have hne : ((k : Int) ≠ -1) := by omega
    simp only [ne_eq, hne, not_false_eq_true, if_true, read_at_natCast, h4, mpz_mul]

/-- Threaded loop with the flag set: only the first slot is looked up. -/
theorem par_search_loop_set (junk : Nat → Nat → Nat) (c : Nat) (arr : List precalc)
    (size e n i : Nat) (rest : List Nat) (st : Int × Nat) :
    Parallel.search_loop junk c arr size e n true (i :: rest) st =
      match binary_search arr (lookup_value junk c e n (i + 1)) size with
      | .error f => .error f
      | .ok idx => .ok (idx, i + 1) := by
  rw [Parallel.search_loop]
  cases binary_search arr (lookup_value junk c e n (i + 1)) size with
  | error f => rfl
  | ok idx => simp

/-- Threaded searcher with the flag already set, on a slice inside the table:
the flag stays set, and the call either returns `1` leaving `res` alone or
returns `0` with `j * i` for the first candidate `j` of the slice and an entry
matching it. -/
theorem par_mitm_set (junk : Nat → Nat → Nat) (c : Nat) (arr : List precalc)
    (size start end_ e n res : Nat) (h : searchable junk c arr size e n) (hend : end_ ≤ size) :
    Parallel.rsa_meet_in_the_middle junk c arr size start end_ e n true res =
        .ok (1, res, true) ∨
    (∃ p : precalc, start < end_ ∧ p ∈ arr ∧ p.val = lookup_value junk c e n (start + 1) ∧
      Parallel.rsa_meet_in_the_middle junk c arr size start end_ e n true res =
        .ok (0, (start + 1) * p.i, true)) := by
  unfold Parallel.rsa_meet_in_the_middle
  by_cases hlt : start < end_
  · obtain ⟨len, hlen⟩ : ∃ len, end_ - start = len + 1 := ⟨end_ - start - 1, by omega⟩
    rw [hlen, List.range'_succ, par_search_loop_set]
    obtain ⟨r, hr, hspec⟩ := searchable_lookup h start (by omega)
    rw [hr]
    rcases hspec with ⟨hneg, _⟩ | ⟨k, p, hk, hp, hv⟩
    · left
      subst hneg
      simp
    · right
      refine ⟨p, hlt, List.mem_iff_getElem?.mpr ⟨k, hp⟩, hv, ?_⟩
      have hne : ((k : Int) ≠ -1) := by omega
      subst hk
      simp only [ne_eq, hne, not_false_eq_true, if_true, read_at_natCast, hp, mpz_mul]
  · left
    have : end_ - start = 0 := by omega
    rw [this]
    simp [Parallel.search_loop]

/-- The single-threaded searcher is the threaded one on the full slice with the
flag unset, without the flag in the result. -/
theorem single_mitm_eq (junk : Nat → Nat → Nat) (c : Nat) (arr : List precalc)
    (size e n res : Nat) :
    Single.rsa_meet_in_the_middle junk c arr size e n res =
      (Parallel.rsa_meet_in_the_middle junk c arr size 0 size e n false res).map
        (fun x => (x.1, x.2.1)) := by
  unfold Single.rsa_meet_in_the_middle Parallel.rsa_meet_in_the_middle
  rw [single_search_loop_eq, List.range_eq_range', Nat.sub_zero]
  cases Parallel.search_loop junk c arr size e n false (List.range' 0 size) (-1, 0) with
  | error f => rfl
  | ok st =>
    obtain ⟨idx, ii⟩ := st
    simp only []
    by_cases hidx : idx = -1
    · simp [hidx, Except.map]
    · simp only [ne_eq, hidx, not_false_eq_true, if_true]
      cases read_at arr idx with
      | none => rfl
      | some p => rfl

/-- A worker on a slice inside the table: its result is valid, a set flag stays
set, and from an unset flag it ends non-empty (setting the flag) exactly when
its slice holds a matching candidate. -/
theorem par_thread_cases (junk : Nat → Nat → Nat) (c : Nat) (arr : List precalc)
    (size start end_ e n : Nat) (stop : Bool) (h : searchable junk c arr size e n)
    (hend : end_ ≤ size) :
    ∃ (r : Option Nat) (stop1 : Bool),
      Parallel.rsa_meet_in_the_middle_thread junk c arr size start end_ e n stop =
        .ok (r, stop1) ∧
      valid_result junk c arr size e n r ∧ (stop = true → stop1 = true) ∧
      (stop = false → (∃ i, start ≤ i ∧ i < end_ ∧ has_match junk c arr e n (i + 1)) →
        r.isSome = true) ∧
      (stop = false → (∀ i, start ≤ i → i < end_ → ¬ has_match junk c arr e n (i + 1)) →
        r = none ∧ stop1 = false) := by
  unfold Parallel.rsa_meet_in_the_middle_thread
  cases stop with
  | false =>
    rcases par_mitm_unset junk c arr size start end_ e n 0 h hend with
      ⟨hnone, hres⟩ | ⟨i, p, h1, h2, h3, hp, hv, hres⟩
    · refine ⟨none, false, ?_, Or.inl rfl, ?_, ?_, ?_⟩
      · rw [hres]; simp
      · intro hf; exact absurd hf (by decide)
      · rintro _ ⟨i, h1, h2, hm⟩
        exact absurd hm (hnone i h1 h2)
      · intro _ _; exact ⟨rfl, rfl⟩
    · refine ⟨some ((i + 1) * p.i), true, ?_,
        Or.inr ⟨i + 1, p, by omega, by omega, hp, hv, rfl⟩, ?_, ?_, ?_⟩
      · rw [hres]; simp
      · intro _; rfl
      · intro _ _; rfl
      · intro _ hno
        exact absurd ⟨p, hp, hv⟩ (hno i h1 h2)
  | true =>
    rcases par_mitm_set junk c arr size start end_ e n 0 h hend with
      hres | ⟨p, hlt, hp, hv, hres⟩
    · refine ⟨none, true, ?_, Or.inl rfl, ?_, ?_, ?_⟩
      · rw [hres]; simp
      · intro _; rfl
      · intro hf; exact absurd hf (by decide)
      · intro hf; exact absurd hf (by decide)
    · refine ⟨some ((start + 1) * p.i), true, ?_,
        Or.inr ⟨start + 1, p, by omega, by omega, hp, hv, rfl⟩, ?_, ?_, ?_⟩
      · rw [hres]; simp
      · intro _; rfl
      · intro hf; exact absurd hf (by decide)
      · intro hf; exact absurd hf (by decide)

/-- The search phase over the workers `ws`, started with the flag `stop`: it
ends without a fault, every worker result is valid, and from an unset flag
some worker ends non-empty as soon as one of the slices holds a match. -/
theorem search_phase_cases (junk : Nat → Nat → Nat) (W c : Nat) (arr : List precalc)
    (size e n : Nat) (h : searchable junk c arr size e n) :
    ∀ (ws : List Nat) (stop : Bool),
      ∃ rs, Parallel.search_phase junk W c arr size e n ws stop = .ok rs ∧
        (∀ r ∈ rs, valid_result junk c arr size e n r) ∧
        (stop = false →
          (∃ w ∈ ws, ∃ i, (Parallel.mitm_args W size w).1 ≤ i ∧
            i < (Parallel.mitm_args W size w).2 ∧ has_match junk c arr e n (i + 1)) →
          ∃ r ∈ rs, r.isSome = true) := by
  intro ws
  induction ws with
  | nil =>
    intro stop
    refine ⟨[], rfl, ?_, ?_⟩
    · intro r hr
      exact absurd hr (List.not_mem_nil r)
    · rintro _ ⟨w, hw, _⟩
      exact absurd hw (List.not_mem_nil w)
  | cons w ws ih =>
    intro stop
    obtain ⟨r, stop1, hthr, hvalid, _, hsome, hnone⟩ :=
      par_thread_cases junk c arr size (Parallel.mitm_args W size w).1
        (Parallel.mitm_args W size w).2 e n stop h (slice_end_le W size w)
    obtain ⟨rs, hrs, hvalids, hfound⟩ := ih stop1
    refine ⟨r :: rs, ?_, ?_, ?_⟩
    · rw [Parallel.search_phase, hthr]
      simp only [hrs]
    · intro x hx
      rcases List.mem_cons.mp hx with rfl | hx
      · exact hvalid
      · exact hvalids x hx
    · intro hstop hex
      by_cases hhere : ∃ i, (Parallel.mitm_args W size w).1 ≤ i ∧
          i < (Parallel.mitm_args W size w).2 ∧ has_match junk c arr e n (i + 1)
      · exact ⟨r, List.mem_cons_self _ _, hsome hstop hhere⟩
      · have hno : ∀ i, (Parallel.mitm_args W size w).1 ≤ i →
            i < (Parallel.mitm_args W size w).2 → ¬ has_match junk c arr e n (i + 1) :=
          fun i h1 h2 hm => hhere ⟨i, h1, h2, hm⟩
        obtain ⟨_, hstop1⟩ := hnone hstop hno
        obtain ⟨u, hu, i, hi1, hi2, hm⟩ := hex
        rcases List.mem_cons.mp hu with rfl | hu
        · exact absurd ⟨i, hi1, hi2, hm⟩ hhere
        · obtain ⟨x, hx, hxs⟩ := hfound hstop1 ⟨u, hu, i, hi1, hi2, hm⟩
          exact ⟨x, List.mem_cons_of_mem _ hx, hxs⟩

theorem result_scan_foldl (M : Nat) (rs : List (Option Nat))
    (hrs : ∀ r ∈ rs, r = none ∨ r = some M) :
    ∀ m : Option Nat, (m = none ∨ m = some M) →
      rs.foldl (fun m r => if r.isSome then r else m) m =
        if (∃ r ∈ rs, r.isSome = true) then some M else m := by
  induction rs with
  | nil => intro m _; simp
  | cons r rs ih =>
    intro m hm
    rw [List.foldl_cons]
    have hr := hrs r (List.mem_cons_self _ _)
    have ih2 := ih (fun x hx => hrs x (List.mem_cons_of_mem _ hx))
    rcases hr with rfl | rfl
    · simp only [Option.isSome_none, Bool.false_eq_true, if_false]
      rw [ih2 m hm]
      simp
    · simp only [Option.isSome_some, if_true]
      rw [ih2 (some M) (Or.inr rfl)]
      simp

/-- The join loop on results that are all empty or all the same plaintext. -/
theorem result_scan_unique (M : Nat) (rs : List (Option Nat))
    (hrs : ∀ r ∈ rs, r = none ∨ r = some M) :
    Parallel.result_scan rs = if (∃ r ∈ rs, r.isSome = true) then some M else none :=
  result_scan_foldl M rs hrs none (Or.inl rfl)

/-! ## The attack under its preconditions -/

theorem mem_sorted_built (size e n : Nat) (p : precalc) :
    p ∈ qsort compare_precalc (built size e n) ↔
      ∃ k, k < size ∧ p = entry e n k := by
  rw [(qsort_perm compare_precalc (built size e n)).mem_iff, mem_built]

/-- The sorted built table is searchable when the candidates are invertible
and `c` is not a multiple of `n` (or `n = 1`). -/
theorem attack_searchable (junk : Nat → Nat → Nat) (c size e n : Nat) (hn : 0 < n)
    (hpos : 1 ≤ size) (hmax : size ≤ 2 ^ 63) (hc : c % n ≠ 0 ∨ n = 1)
    (hinv : ∀ k, 1 ≤ k → k ≤ size → Nat.gcd (k ^ e % n) n = 1) :
    searchable junk c (qsort compare_precalc (built size e n)) size e n := by
  refine ⟨qsort_sorted _, ?_, hpos, hmax, ?_⟩
  · rw [(qsort_perm compare_precalc (built size e n)).length_eq]
    simp [built]
  · intro j p hj1 hj2 hp
    exact le_trans
      (sorted_first_le _ size e n (qsort_sorted _) (qsort_perm _ _) hpos p hp)
      (lookup_value_ge junk c e n j hn hc (hinv j hj1 hj2))

/-- Every non-empty valid result on the sorted built table is a product
`m = j * i` with `1 ≤ m ≤ size * size` and `m ^ e ≡ c (mod n)`. -/
theorem valid_result_sound (junk : Nat → Nat → Nat) (c size e n m : Nat) (hn : 0 < n)
    (hinv : ∀ k, 1 ≤ k → k ≤ size → Nat.gcd (k ^ e % n) n = 1)
    (hv : valid_result junk c (qsort compare_precalc (built size e n)) size e n (some m)) :
    1 ≤ m ∧ m ≤ size * size ∧ m ^ e % n = c % n := by
  rcases hv with h | ⟨j, p, hj1, hj2, hp, hval, hm⟩
  · cases h
  · obtain ⟨k, hk, rfl⟩ := (mem_sorted_built size e n p).mp hp
    have hm2 : m = j * (k + 1) := by
      simpa [entry] using hm
    subst hm2
    refine ⟨Nat.mul_pos (by omega) (by omega), Nat.mul_le_mul hj2 (by omega), ?_⟩
    exact match_sound junk c e n j (k + 1) hn (hinv j hj1 hj2) (by simpa [entry, mpz_powm] using hval)

/-- Outcome of the single-threaded program on a searchable sorted table:
failure when no candidate has a match, else the product for the first
matching candidate. -/
theorem single_attack_on_cases (junk : Nat → Nat → Nat) (init : List precalc)
    (n e c size : Nat) (hlen : init.length = size)
    (h : searchable junk c (qsort compare_precalc (built size e n)) size e n) :
    ((∀ j, 1 ≤ j → j ≤ size →
        ¬ has_match junk c (qsort compare_precalc (built size e n)) e n j) ∧
      Single.rsa_meet_in_the_middle junk c (qsort compare_precalc (built size e n))
        size e n 0 = .ok (1, 0) ∧
      Single.attack_on junk init n e c size = .ok none) ∨
    (∃ m, valid_result junk c (qsort compare_precalc (built size e n)) size e n (some m) ∧
      Single.rsa_meet_in_the_middle junk c (qsort compare_precalc (built size e n))
        size e n 0 = .ok (0, m) ∧
      Single.attack_on junk init n e c size = .ok (some m)) := by
  unfold Single.attack_on
  simp only [single_build_table_built init size e n hlen]
  rw [single_mitm_eq]
  rcases par_mitm_unset junk c _ size 0 size e n 0 h (le_refl _) with
    ⟨hnone, hres⟩ | ⟨i, p, h1, h2, h3, hp, hv, hres⟩
  · left
    refine ⟨?_, ?_, ?_⟩
    · intro j hj1 hj2
      have := hnone (j - 1) (Nat.zero_le _) (by omega)
      have e1 : j - 1 + 1 = j := by omega
      rwa [e1] at this
    · rw [hres]; rfl
    · rw [hres]; simp [Except.map]
  · right
    refine ⟨(i + 1) * p.i, Or.inr ⟨i + 1, p, by omega, by omega, hp, hv, rfl⟩, ?_, ?_⟩
    · rw [hres]; rfl
    · rw [hres]; simp [Except.map]

/-- With `W` workers run one after the other the threaded program has the
outcome of the single-threaded program, provided the table is searchable and
all non-empty valid results agree. -/
theorem par_attack_on_eq_single (junk : Nat → Nat → Nat) (W : Nat) (init : List precalc)
    (n e c size : Nat) (hlen : init.length = size) (hW : 1 ≤ W) (hfit : size + W ≤ 2 ^ 64)
    (h : searchable junk c (qsort compare_precalc (built size e n)) size e n)
    (huniq : ∀ a b,
      valid_result junk c (qsort compare_precalc (built size e n)) size e n (some a) →
      valid_result junk c (qsort compare_precalc (built size e n)) size e n (some b) → a = b) :
    Parallel.attack_on junk W init n e c size = Single.attack_on junk init n e c size := by
  obtain ⟨rs, hrs, hvalid, hfound⟩ :=
    search_phase_cases junk W c _ size e n h (List.range W) false
  have hpar : Parallel.attack_on junk W init n e c size = .ok (Parallel.result_scan rs) := by
    unfold Parallel.attack_on
    simp only [build_phase_built init W size e n (List.range W) hlen hW hfit (List.Perm.refl _)]
    rw [hrs]
  rw [hpar]
  rcases single_attack_on_cases junk init n e c size hlen h with
    ⟨hnone, _, hres⟩ | ⟨m, hm, _, hres⟩
  · rw [hres]
    have hall : ∀ r ∈ rs, r = none ∨ r = some 0 := by
      intro r hr
      rcases hvalid r hr with h0 | ⟨j, p, hj1, hj2, hp, hv, _⟩
      · exact Or.inl h0
      · exact absurd ⟨p, hp, hv⟩ (hnone j hj1 hj2)
    rw [result_scan_unique 0 rs hall]
    have hno : ¬ ∃ r ∈ rs, r.isSome = true := by
      rintro ⟨r, hr, hs⟩
      rcases hvalid r hr with h0 | ⟨j, p, hj1, hj2, hp, hv, _⟩
      · rw [h0] at hs; cases hs
      · exact absurd ⟨p, hp, hv⟩ (hnone j hj1 hj2)
    rw [if_neg hno]
  · rw [hres]
    have hall : ∀ r ∈ rs, r = none ∨ r = some m := by
      intro r hr
      cases hr0 : r with
      | none => exact Or.inl rfl
      | some a =>
        right
        have hv := hvalid r hr
        rw [hr0] at hv
        rw [huniq a m hv hm]
    rw [result_scan_unique m rs hall]
    have hex : ∃ r ∈ rs, r.isSome = true := by
      apply hfound rfl
      rcases hm with h0 | ⟨j, p, hj1, hj2, hp, hv, _⟩
      · cases h0
      · obtain ⟨w, hw, hw1, hw2⟩ := slice_cover W size (j - 1) hfit hW (by omega)
        refine ⟨w, List.mem_range.mpr hw, j - 1, hw1, hw2, ?_⟩
        have e1 : j - 1 + 1 = j := by omega
        rw [e1]
        exact ⟨p, hp, hv⟩
    rw [if_pos hex]

theorem pow_two_le_of_shift (L : Nat) (hL : L / 2 < 64) :
    1 ≤ 2 ^ (L / 2) ∧ 2 ^ (L / 2) ≤ 2 ^ 63 :=
  ⟨Nat.one_le_two_pow, Nat.pow_le_pow_right (by decide) (by omega)⟩

theorem fresh_table_length (size : Nat) : (fresh_table size).length = size := by
  simp [fresh_table]

/-- Invertibility of `i ^ e` and `j ^ e` modulo `n ≠ 1` keeps the ciphertext of
`i * j` away from zero. -/
theorem ciphertext_ne_zero (n e i j : Nat)
    (hi : Nat.gcd (i ^ e % n) n = 1) (hj : Nat.gcd (j ^ e % n) n = 1) :
    (i * j) ^ e % n % n ≠ 0 ∨ n = 1 := by
  by_cases h1 : n = 1
  · exact Or.inr h1
  · left
    rw [Nat.mod_mod]
    intro h0
    have ci : Nat.Coprime (i ^ e) n := by
      unfold Nat.Coprime
      rw [Nat.gcd_comm, Nat.gcd_rec]; exact hi
    have cj : Nat.Coprime (j ^ e) n := by
      unfold Nat.Coprime
      rw [Nat.gcd_comm, Nat.gcd_rec]; exact hj
    have cij : Nat.gcd ((i * j) ^ e) n = 1 := by
      rw [mul_pow]; exact Nat.Coprime.mul ci cj
    rw [Nat.gcd_comm, Nat.gcd_rec, h0, Nat.gcd_zero_left] at cij
    exact h1 cij

/-- Under injectivity of encryption on `[1, size * size]` all non-empty valid
results on the sorted built table agree. -/
theorem valid_result_agree (junk : Nat → Nat → Nat) (c size e n : Nat) (hn : 0 < n)
    (hinv : ∀ k, 1 ≤ k → k ≤ size → Nat.gcd (k ^ e % n) n = 1)
    (hinj : ∀ x, 1 ≤ x → x ≤ size * size → ∀ y, 1 ≤ y → y ≤ size * size →
      x ^ e % n = y ^ e % n → x = y) (a b : Nat)
    (ha : valid_result junk c (qsort compare_precalc (built size e n)) size e n (some a))
    (hb : valid_result junk c (qsort compare_precalc (built size e n)) size e n (some b)) :
    a = b := by
  obtain ⟨a1, a2, a3⟩ := valid_result_sound junk c size e n a hn hinv ha
  obtain ⟨b1, b2, b3⟩ := valid_result_sound junk c size e n b hn hinv hb
  exact hinj a a1 a2 b b1 b2 (a3.trans b3.symm)

/-- C1 (round trip), amended: for a modulus `N > 0` and a bit bound `L` with
`L / 2 < 64`, let `size = 2 ^ floor(L / 2)` be the table size of `main`.  If
`k ^ e` is invertible modulo `N` for every candidate `1 ≤ k ≤ size` and
encryption `x ↦ x ^ e mod N` is injective on `[1, size * size]`, then for every
plaintext `m = i * j` with `1 ≤ i, j ≤ size` the attack on `c = m ^ e mod N`
reports success and recovers exactly `m`, whatever a failed inversion would
leave behind. -/
theorem round_trip (junk : Nat → Nat → Nat) (N e L i j : Nat) (hN : 0 < N) (hL : L / 2 < 64)
    (hi1 : 1 ≤ i) (hi2 : i ≤ 2 ^ (L / 2)) (hj1 : 1 ≤ j) (hj2 : j ≤ 2 ^ (L / 2))
    (hinv : ∀ k, 1 ≤ k → k ≤ 2 ^ (L / 2) → Nat.gcd (k ^ e % N) N = 1)
    (hinj : ∀ x, 1 ≤ x → x ≤ 2 ^ (L / 2) * 2 ^ (L / 2) →
      ∀ y, 1 ≤ y → y ≤ 2 ^ (L / 2) * 2 ^ (L / 2) → x ^ e % N = y ^ e % N → x = y) :
    Single.attack junk N e ((i * j) ^ e % N) L = .ok (some (i * j)) := by
  obtain ⟨hpos, hmax⟩ := pow_two_le_of_shift L hL
  have hc := ciphertext_ne_zero N e i j (hinv i hi1 hi2) (hinv j hj1 hj2)
  have hs := attack_searchable junk ((i * j) ^ e % N) (2 ^ (L / 2)) e N hN hpos hmax hc hinv
  have hmatch : has_match junk ((i * j) ^ e % N)
      (qsort compare_precalc (built (2 ^ (L / 2)) e N)) e N j := by
    refine ⟨entry e N (i - 1), (mem_sorted_built _ e N _).mpr ⟨i - 1, by omega, rfl⟩, ?_⟩
    rw [match_complete junk e N i j hN (hinv j hj1 hj2)]
    have e1 : i - 1 + 1 = i := by omega
    simp [entry, mpz_powm, e1]
  have hvalid : valid_result junk ((i * j) ^ e % N)
      (qsort compare_precalc (built (2 ^ (L / 2)) e N)) (2 ^ (L / 2)) e N (some (i * j)) := by
    obtain ⟨p, hp, hv⟩ := hmatch
    refine Or.inr ⟨j, entry e N (i - 1), hj1, hj2,
      (mem_sorted_built _ e N _).mpr ⟨i - 1, by omega, rfl⟩, ?_, ?_⟩
    · rw [match_complete junk e N i j hN (hinv j hj1 hj2)]
      have e1 : i - 1 + 1 = i := by omega
      simp [entry, mpz_powm, e1]
    · have e1 : i - 1 + 1 = i := by omega
      simp [entry, e1, Nat.mul_comm]
  unfold Single.attack table_size
  rw [if_pos hL]
  simp only []
  rcases single_attack_on_cases junk (fresh_table (2 ^ (L / 2))) N e ((i * j) ^ e % N)
      (2 ^ (L / 2)) (fresh_table_length _) hs with ⟨hnone, _, _⟩ | ⟨m, hm, _, hres⟩
  · exact absurd hmatch (hnone j hj1 hj2)
  · rw [hres, valid_result_agree junk _ _ e N hN hinv hinj m (i * j) hm hvalid]

theorem round_trip_witness :
    (0 < 35 ∧ 4 / 2 < 64 ∧ 1 ≤ 2 ∧ 2 ≤ 2 ^ (4 / 2) ∧ 1 ≤ 3 ∧ 3 ≤ 2 ^ (4 / 2) ∧
      (∀ k, 1 ≤ k → k ≤ 2 ^ (4 / 2) → Nat.gcd (k ^ 5 % 35) 35 = 1) ∧
      (∀ x, 1 ≤ x → x ≤ 2 ^ (4 / 2) * 2 ^ (4 / 2) →
        ∀ y, 1 ≤ y → y ≤ 2 ^ (4 / 2) * 2 ^ (4 / 2) → x ^5 % 35 = y ^ 5 % 35 → x = y)) ∧
    Single.attack (fun a _ => a) 35 5 ((2 * 3) ^ 5 % 35) 4 = .ok (some (2 * 3)) :=
  ⟨⟨by decide, by decide, by decide, by decide, by decide, by decide, by decide, by decide⟩,
    round_trip (fun a _ => a) 35 5 4 2 3 (by decide) (by decide) (by decide) (by decide)
      (by decide) (by decide) (by decide) (by decide)⟩

/-- C1 (round trip), counterexamples to the claim as stated.  (a) `L = 1`:
`m = 1 * 2` has both factors in `[1, 2 ^ ceil(L / 2)] = [1, 2]`, but the table
has `2 ^ floor(L / 2) = 1` entry and the attack fails.  (b) `N = 11`, `e = 3`,
`L = 4`: `m = 3 * 4 = 12` and `1` have the same ciphertext, and the attack
returns `1`.  (c) `N = 33`, `e = 3`, `L = 4`, `m = 3 * 3`: the candidate `3` is
not invertible modulo `33` and the attack fails (here with `rop` left
unchanged by the failed inversion). -/
theorem round_trip_fails :
    ((1 ≤ 1 ∧ 1 ≤ 2 ^ ((1 + 1) / 2) ∧ 1 ≤ 2 ∧ 2 ≤ 2 ^ ((1 + 1) / 2)) ∧
      Single.attack (fun a _ => a) 35 5 ((1 * 2) ^ 5 % 35) 1 = .ok none) ∧
    ((3 ≤ 2 ^ (4 / 2) ∧ 4 ≤ 2 ^ (4 / 2)) ∧
      Single.attack (fun a _ => a) 11 3 ((3 * 4) ^ 3 % 11) 4 = .ok (some 1)) ∧
    ((3 ≤ 2 ^ (4 / 2)) ∧
      Single.attack (fun a _ => a) 33 3 ((3 * 3) ^ 3 % 33) 4 = .ok none) := by
  decide

/-- C8 (negative case), amended: let `size = 2 ^ floor(L / 2)` with
`L / 2 < 64` and `N > 0`.  If the ciphertext `c = m ^ e mod N` is not zero,
every candidate `1 ≤ k ≤ size` has `k ^ e` invertible modulo `N`, no product
`x` in `[1, size * size]` other than `m` encrypts to `c`, and `m` has no
factorisation `m = i * j` with `1 ≤ i, j ≤ size`, then the search examines
every candidate (the loop ends after candidate `size` with `idx = -1`),
`rsa_meet_in_the_middle` returns `1` leaving `res` alone, and the attack
reports failure. -/
theorem negative_case (junk : Nat → Nat → Nat) (N e L m : Nat) (hN : 0 < N) (hL : L / 2 < 64)
    (hc : m ^ e % N ≠ 0)
    (hinv : ∀ k, 1 ≤ k → k ≤ 2 ^ (L / 2) → Nat.gcd (k ^ e % N) N = 1)
    (hinj : ∀ x, 1 ≤ x → x ≤ 2 ^ (L / 2) * 2 ^ (L / 2) → x ^ e % N = m ^ e % N → x = m)
    (hnofac : ∀ i, 1 ≤ i → i ≤ 2 ^ (L / 2) → ∀ j, 1 ≤ j → j ≤ 2 ^ (L / 2) → i * j ≠ m) :
    Single.search_loop junk (m ^ e % N)
        (qsort compare_precalc (Single.build_table (fresh_table (2 ^ (L / 2))) (2 ^ (L / 2)) e N))
        (2 ^ (L / 2)) e N (List.range (2 ^ (L / 2))) (-1, 0) = .ok (-1, 2 ^ (L / 2)) ∧
    Single.rsa_meet_in_the_middle junk (m ^ e % N)
        (qsort compare_precalc (Single.build_table (fresh_table (2 ^ (L / 2))) (2 ^ (L / 2)) e N))
        (2 ^ (L / 2)) e N 0 = .ok (1, 0) ∧
    Single.attack junk N e (m ^ e % N) L = .ok none := by
  obtain ⟨hpos, hmax⟩ := pow_two_le_of_shift L hL
  have hc2 : m ^ e % N % N ≠ 0 ∨ N = 1 := Or.inl (by rw [Nat.mod_mod]; exact hc)
  have hs := attack_searchable junk (m ^ e % N) (2 ^ (L / 2)) e N hN hpos hmax hc2 hinv
  have hno : ∀ r, valid_result junk (m ^ e % N)
      (qsort compare_precalc (built (2 ^ (L / 2)) e N)) (2 ^ (L / 2)) e N (some r) → False := by
    intro r hr
    obtain ⟨r1, r2, r3⟩ := valid_result_sound junk _ _ e N r hN hinv hr
    rw [Nat.mod_mod] at r3
    have hrm := hinj r r1 r2 r3
    rcases hr with h0 | ⟨j, p, hj1, hj2, hp, _, hm⟩
    · cases h0
    · obtain ⟨k, hk, rfl⟩ := (mem_sorted_built _ e N p).mp hp
      have : r = j * (k + 1) := by simpa [entry] using hm
      exact hnofac j hj1 hj2 (k + 1) (by omega) (by omega) (by omega)
  rw [single_build_table_built _ _ e N (fresh_table_length _)]
  have hloop : Single.search_loop junk (m ^ e % N)
      (qsort compare_precalc (built (2 ^ (L / 2)) e N))
      (2 ^ (L / 2)) e N (List.range (2 ^ (L / 2))) (-1, 0) = .ok (-1, 2 ^ (L / 2)) := by
    rw [single_search_loop_eq, List.range_eq_range']
    rcases par_search_loop_cases junk (m ^ e % N) _ (2 ^ (L / 2)) e N (2 ^ (L / 2)) 0 (-1, 0) rfl
        (fun i _ h2 => searchable_lookup hs i (by omega)) with
      ⟨_, hres⟩ | ⟨i, k, p, _, h2, _, h4, h5, _⟩
    · rw [hres]
      have : ¬ (2 ^ (L / 2) = 0) := by omega
      simp [this]
    · exact absurd (Or.inr ⟨i + 1, p, by omega, by omega,
        List.mem_iff_getElem?.mpr ⟨k, h4⟩, h5, rfl⟩) (hno ((i + 1) * p.i))
  refine ⟨hloop, ?_, ?_⟩
  · unfold Single.rsa_meet_in_the_middle
    rw [hloop]
    simp
  · unfold Single.attack table_size
    rw [if_pos hL]
    simp only []
    rcases single_attack_on_cases junk (fresh_table (2 ^ (L / 2))) N e (m ^ e % N)
        (2 ^ (L / 2)) (fresh_table_length _) hs with ⟨_, _, hres⟩ | ⟨r, hr, _, _⟩
    · exact hres
    · exact absurd hr (hno r)

theorem negative_case_witness :
    (0 < 35 ∧ 4 / 2 < 64 ∧ 17 ^ 5 % 35 ≠ 0 ∧
      (∀ k, 1 ≤ k → k ≤ 2 ^ (4 / 2) → Nat.gcd (k ^ 5 % 35) 35 = 1) ∧
      (∀ x, 1 ≤ x → x ≤ 2 ^ (4 / 2) * 2 ^ (4 / 2) → x ^ 5 % 35 = 17 ^ 5 % 35 → x = 17) ∧
      (∀ i, 1 ≤ i → i ≤ 2 ^ (4 / 2) → ∀ j, 1 ≤ j → j ≤ 2 ^ (4 / 2) → i * j ≠ 17)) ∧
    (Single.search_loop (fun a _ => a) (17 ^ 5 % 35)
        (qsort compare_precalc (Single.build_table (fresh_table (2 ^ (4 / 2))) (2 ^ (4 / 2)) 5 35))
        (2 ^ (4 / 2)) 5 35 (List.range (2 ^ (4 / 2))) (-1, 0) = .ok (-1, 2 ^ (4 / 2)) ∧
    Single.rsa_meet_in_the_middle (fun a _ => a) (17 ^ 5 % 35)
        (qsort compare_precalc (Single.build_table (fresh_table (2 ^ (4 / 2))) (2 ^ (4 / 2)) 5 35))
        (2 ^ (4 / 2)) 5 35 0 = .ok (1, 0) ∧
    Single.attack (fun a _ => a) 35 5 (17 ^ 5 % 35) 4 = .ok none) :=
  ⟨⟨by decide, by decide, by decide, by decide, by decide, by decide⟩,
    negative_case (fun a _ => a) 35 5 4 17 (by decide) (by decide) (by decide) (by decide)
      (by decide) (by decide)⟩

/-- C8 (negative case), counterexamples to the claim as stated.  (a) `N = 11`,
`e = 3`, `L = 4`: the plaintext `5` has no factorisation within `[1, 4]`, but
`16 = 4 * 4` has the same ciphertext and the attack reports success with `16`.
(b) `N = 33`, `e = 3`, `L = 4`: the plaintext `23` has no factorisation within
`[1, 4]`; the candidate `3` is not invertible, and with `rop` left unchanged by
the failed inversion the attack reports success with `9`. -/
theorem negative_case_fails :
    ((∀ i, 1 ≤ i → i ≤ 2 ^ (4 / 2) → ∀ j, 1 ≤ j → j ≤ 2 ^ (4 / 2) → i * j ≠ 5) ∧
      Single.attack (fun a _ => a) 11 3 (5 ^ 3 % 11) 4 = .ok (some 16)) ∧
    ((∀ i, 1 ≤ i → i ≤ 2 ^ (4 / 2) → ∀ j, 1 ≤ j → j ≤ 2 ^ (4 / 2) → i * j ≠ 23) ∧
      Single.attack (fun a _ => a) 33 3 (23 ^ 3 % 33) 4 = .ok (some 9)) := by
  decide

/-- The threaded program with `W` workers has the outcome of the single-threaded
program when the candidates are invertible, `c` is not a multiple of `N` and
encryption is injective on `[1, size * size]`. -/
theorem par_attack_eq_single (junk : Nat → Nat → Nat) (W N e c L : Nat) (hN : 0 < N)
    (hW : 1 ≤ W) (hfit : W ≤ 2 ^ 63) (hc : c % N ≠ 0)
    (hinv : ∀ k, 1 ≤ k → k ≤ 2 ^ (L / 2) → Nat.gcd (k ^ e % N) N = 1)
    (hinj : ∀ x, 1 ≤ x → x ≤ 2 ^ (L / 2) * 2 ^ (L / 2) →
      ∀ y, 1 ≤ y → y ≤ 2 ^ (L / 2) * 2 ^ (L / 2) → x ^ e % N = y ^ e % N → x = y) :
    Parallel.attack junk W N e c L = Single.attack junk N e c L := by
  unfold Parallel.attack Single.attack table_size
  by_cases hL : L / 2 < 64
  · rw [if_pos hL]
    simp only []
    obtain ⟨hpos, hmax⟩ := pow_two_le_of_shift L hL
    have hs := attack_searchable junk c (2 ^ (L / 2)) e N hN hpos hmax (Or.inl hc) hinv
    exact par_attack_on_eq_single junk W _ N e c (2 ^ (L / 2)) (fresh_table_length _) hW
      (by omega) hs (valid_result_agree junk c _ e N hN hinv hinj)
  · rw [if_neg hL]

/-- C9 (worker-count independence), amended: with the workers run to
completion in index order, any two worker counts `1 ≤ W1, W2 ≤ 2 ^ 63` give the
same outcome, which is the outcome of the single-threaded program, provided
`N > 0`, `c` is not a multiple of `N`, every candidate `1 ≤ k ≤ size` has
`k ^ e` invertible modulo `N` and encryption is injective on
`[1, size * size]`, where `size = 2 ^ floor(L / 2)`. -/
theorem worker_count_independent (junk : Nat → Nat → Nat) (W1 W2 N e c L : Nat) (hN : 0 < N)
    (hW1 : 1 ≤ W1) (hfit1 : W1 ≤ 2 ^ 63) (hW2 : 1 ≤ W2) (hfit2 : W2 ≤ 2 ^ 63)
    (hc : c % N ≠ 0)
    (hinv : ∀ k, 1 ≤ k → k ≤ 2 ^ (L / 2) → Nat.gcd (k ^ e % N) N = 1)
    (hinj : ∀ x, 1 ≤ x → x ≤ 2 ^ (L / 2) * 2 ^ (L / 2) →
      ∀ y, 1 ≤ y → y ≤ 2 ^ (L / 2) * 2 ^ (L / 2) → x ^ e % N = y ^ e % N → x = y) :
    Parallel.attack junk W1 N e c L = Parallel.attack junk W2 N e c L ∧
    Parallel.attack junk W1 N e c L = Single.attack junk N e c L := by
  have h1 := par_attack_eq_single junk W1 N e c L hN hW1 hfit1 hc hinv hinj
  have h2 := par_attack_eq_single junk W2 N e c L hN hW2 hfit2 hc hinv hinj
  exact ⟨h1.trans h2.symm, h1⟩

theorem worker_count_independent_witness :
    (0 < 35 ∧ 1 ≤ 1 ∧ 1 ≤ 2 ^ 63 ∧ 1 ≤ 4 ∧ 4 ≤ 2 ^ 63 ∧ 9 % 35 ≠ 0 ∧
      (∀ k, 1 ≤ k → k ≤ 2 ^ (4 / 2) → Nat.gcd (k ^ 5 % 35) 35 = 1) ∧
      (∀ x, 1 ≤ x → x ≤ 2 ^ (4 / 2) * 2 ^ (4 / 2) →
        ∀ y, 1 ≤ y → y ≤ 2 ^ (4 / 2) * 2 ^ (4 / 2) → x ^ 5 % 35 = y ^ 5 % 35 → x = y)) ∧
    (Parallel.attack (fun a _ => a) 1 35 5 9 4 = Parallel.attack (fun a _ => a) 4 35 5 9 4 ∧
      Parallel.attack (fun a _ => a) 1 35 5 9 4 = Single.attack (fun a _ => a) 35 5 9 4) :=
  ⟨⟨by decide, by decide, by norm_num, by decide, by norm_num, by decide, by decide, by decide⟩,
    worker_count_independent (fun a _ => a) 1 4 35 5 9 4 (by decide) (by decide) (by norm_num)
      (by decide) (by norm_num) (by decide) (by decide) (by decide)⟩

/-- C9 (worker-count independence), counterexamples to the claim as stated,
with the workers run to completion in index order.  (a) `N = 11`, `e = 3`,
`c = 1`, `L = 4`: one worker recovers `1`, four and sixteen workers recover
`12` (both encrypt to `1`).  (b) `N = 33`, `e = 3`, `c = 1`, `L = 4`: one
worker recovers `1`; with four workers the worker of the non-invertible
candidate `3` reports `9` (with `rop` left unchanged by the failed inversion),
which the join loop accepts. -/
theorem worker_count_dependent :
    (Parallel.attack (fun a _ => a) 1 11 3 1 4 = .ok (some 1) ∧
      Parallel.attack (fun a _ => a) 4 11 3 1 4 = .ok (some 12) ∧
      Parallel.attack (fun a _ => a) 16 11 3 1 4 = .ok (some 12)) ∧
    (Parallel.attack (fun a _ => a) 1 33 3 1 4 = .ok (some 1) ∧
      Parallel.attack (fun a _ => a) 4 33 3 1 4 = .ok (some 9)) := by
  decide

/-! ## Claims on the searcher and on the compiled constants -/

/-- C4 (searcher contract), evaluated where the code departs from it.  The
table `[(1, 1), (2, 8)]` for `N = 15`, `e = 3` is non-empty, sorted, every
entry has `val = i ^ e mod N`, and both candidates are invertible.  For `c = 0`
no candidate's lookup value (`0`) is a table value, so the contract asks for
the return value `1`.  The lookup of `0`, below the first entry, instead wraps
`high` in `binary_search` and reads outside the table, in the single-threaded
searcher and in the threaded one with the flag unset. -/
theorem searcher_contract_fails :
    ((∀ p ∈ [(⟨1, 1⟩ : precalc), ⟨2, 8⟩], p.val = p.i ^ 3 % 15) ∧
      (∀ k, 1 ≤ k → k ≤ 2 → Nat.gcd (k ^ 3 % 15) 15 = 1) ∧
      (∀ k, 1 ≤ k → k ≤ 2 → ∀ p ∈ [(⟨1, 1⟩ : precalc), ⟨2, 8⟩],
        p.val ≠ lookup_value (fun a _ => a) 0 3 15 k)) ∧
    Single.rsa_meet_in_the_middle (fun a _ => a) 0 [⟨1, 1⟩, ⟨2, 8⟩] 2 3 15 0 = .error .oob ∧
    Parallel.rsa_meet_in_the_middle (fun a _ => a) 0 [⟨1, 1⟩, ⟨2, 8⟩] 2 0 2 3 15 false 0 =
      .error .oob ∧
    Single.attack (fun a _ => a) 15 3 0 2 = .error .oob := by
  decide

theorem lookup_value_junk (junk1 junk2 : Nat → Nat → Nat) (c e n j : Nat)
    (hg : Nat.gcd (j ^ e % n) n = 1) :
    lookup_value junk1 c e n j = lookup_value junk2 c e n j := by
  unfold lookup_value mpz_invert mpz_powm
  simp only [hg, if_true]

theorem single_search_loop_junk (junk1 junk2 : Nat → Nat → Nat) (c : Nat) (arr : List precalc)
    (size e n : Nat) (l : List Nat) (hl : ∀ i ∈ l, Nat.gcd ((i + 1) ^ e % n) n = 1) :
    ∀ st, Single.search_loop junk1 c arr size e n l st =
      Single.search_loop junk2 c arr size e n l st := by
  induction l with
  | nil => intro st; rfl
  | cons i rest ih =>
    intro st
    rw [Single.search_loop, Single.search_loop,
      lookup_value_junk junk1 junk2 c e n (i + 1) (hl i (List.mem_cons_self _ _))]
    cases binary_search arr (lookup_value junk2 c e n (i + 1)) size with
    | error f => rfl
    | ok idx =>
      simp only []
      rw [ih (fun k hk => hl k (List.mem_cons_of_mem _ hk))]

/-- With invertible candidates the outcome of the single-threaded program does
not depend on what a failed inversion would leave behind. -/
theorem single_attack_junk (junk1 junk2 : Nat → Nat → Nat) (n e c L : Nat)
    (hinv : ∀ k, 1 ≤ k → k ≤ 2 ^ (L / 2) → Nat.gcd (k ^ e % n) n = 1) :
    Single.attack junk1 n e c L = Single.attack junk2 n e c L := by
  unfold Single.attack table_size
  by_cases hL : L / 2 < 64
  · rw [if_pos hL]
    simp only []
    unfold Single.attack_on Single.rsa_meet_in_the_middle
    simp only []
    rw [single_search_loop_junk junk1 junk2 c _ _ e n (List.range (2 ^ (L / 2)))
      (fun i hi => hinv (i + 1) (by omega) (by have := List.mem_range.mp hi; omega))]
  · rw [if_neg hL]

theorem constants_invertible :
    ∀ k, 1 ≤ k → k ≤ 2 ^ (L / 2) → Nat.gcd (k ^ E % N) N = 1 := by
  decide!

theorem attack_with_rop_unchanged :
    Single.attack (fun a _ => a) N E CIPHERTEXT L = .ok (some 407) := by
  decide!

/-- When `alloc_table` succeeds, `main` reports the outcome of the attack. -/
theorem single_main_on_eq (malloc : Nat → Bool) (junk : Nat → Nat → Nat) (n e c L size : Nat)
    (hsize : table_size L = .ok size) (hguard : ¬ size * sizeof_precalc % SIZE_T ≤ size)
    (hmalloc : malloc (size * sizeof_precalc % SIZE_T) = true) :
    Single.main_on malloc junk n e c L =
      match Single.attack junk n e c L with
      | .error f => .error f
      | .ok none => .ok .attack_failed
      | .ok (some m) => .ok (.recovered m) := by
  unfold Single.main_on Single.attack alloc_table
  rw [hsize]
  simp only []
  rw [if_neg hguard, if_pos hmalloc]

/-- C2 (concrete scenario), amended: on the constants compiled into the
program, a modulus `N` of 667 bits, `e = 65537`, `L = 12` (so 64 table entries
and candidates `1, ..., 64`) and the given `CIPHERTEXT`, the attack reports
success with `m = 407`, and `m < 4096` and `m ^ e mod N = c`; so does `main`
whenever `malloc` grants the `64 * 24` bytes of the table. -/
theorem main_recovers_plaintext :
    (2 ^ 666 ≤ N ∧ N < 2 ^ 667) ∧ E = 65537 ∧ L = 12 ∧ table_size L = .ok 64 ∧
    (∀ junk, Single.attack junk N E CIPHERTEXT L = .ok (some 407)) ∧
    (∀ malloc junk, malloc (64 * sizeof_precalc) = true →
      Single.main malloc junk = .ok (.recovered 407)) ∧
    407 < 4096 ∧ 407 ^ E % N = CIPHERTEXT := by
  have hattack : ∀ junk, Single.attack junk N E CIPHERTEXT L = .ok (some 407) := by
    intro junk
    rw [single_attack_junk junk (fun a _ => a) N E CIPHERTEXT L constants_invertible]
    exact attack_with_rop_unchanged
  refine ⟨by decide!, rfl, rfl, by decide, hattack, ?_, by decide, by decide!⟩
  intro malloc junk hm
  unfold Single.main
  rw [single_main_on_eq malloc junk N E CIPHERTEXT L 64 (by decide) (by decide) hm, hattack junk]

/-- C2 (concrete scenario), counterexample to the claim as stated: the
compiled modulus is not a 608-bit number. -/
theorem modulus_not_608_bits : ¬ (N < 2 ^ 608) := by
  decide!

/-! ## Stop flag and result arbitration -/

/-- C11 (cooperative early termination), amended: the threaded searcher reads
the stop flag after each candidate's lookup, not before it.  A worker whose
flag is already set when it starts looks up exactly the first candidate of its
range (its run equals the run on the range cut down to that candidate): it
returns "not found" when the range is empty or that candidate has no match,
and otherwise returns `0` with the product for that candidate. -/
theorem stop_read_after_lookup (junk : Nat → Nat → Nat) (c : Nat) (arr : List precalc)
    (size start end_ e n res : Nat) :
    Parallel.rsa_meet_in_the_middle junk c arr size start end_ e n true res =
      Parallel.rsa_meet_in_the_middle junk c arr size start (min end_ (start + 1)) e n true res ∧
    (end_ ≤ start →
      Parallel.rsa_meet_in_the_middle junk c arr size start end_ e n true res =
        .ok (1, res, true)) ∧
    (start < end_ →
      binary_search arr (lookup_value junk c e n (start + 1)) size = .ok (-1) →
      Parallel.rsa_meet_in_the_middle junk c arr size start end_ e n true res =
        .ok (1, res, true)) ∧
    (start < end_ → ∀ (k : Nat) (p : precalc),
      binary_search arr (lookup_value junk c e n (start + 1)) size = .ok (k : Int) →
      arr[k]? = some p →
      Parallel.rsa_meet_in_the_middle junk c arr size start end_ e n true res =
        .ok (0, (start + 1) * p.i, true)) := by
  have hcut : ∀ h : start < end_,
      Parallel.search_loop junk c arr size e n true (List.range' start (end_ - start)) (-1, 0) =
        match binary_search arr (lookup_value junk c e n (start + 1)) size with
        | .error f => .error f
        | .ok idx => .ok (idx, start + 1) := by
    intro h
    obtain ⟨len, hlen⟩ : ∃ len, end_ - start = len + 1 := ⟨end_ - start - 1, by omega⟩
    rw [hlen, List.range'_succ, par_search_loop_set]
  refine ⟨?_, ?_, ?_, ?_⟩
  · unfold Parallel.rsa_meet_in_the_middle
    by_cases h : start < end_
    · have hm : min end_ (start + 1) - start = 1 := by omega
      rw [hcut h, hm]
      have : List.range' start 1 = [start] := rfl
      rw [this, par_search_loop_set]
    · have h1 : end_ - start = 0 := by omega
      have h2 : min end_ (start + 1) - start = 0 := by omega
      rw [h1, h2]
  · intro h
    unfold Parallel.rsa_meet_in_the_middle
    have h1 : end_ - start = 0 := by omega
    rw [h1]
    simp [Parallel.search_loop]
  · intro h hbs
    unfold Parallel.rsa_meet_in_the_middle
    rw [hcut h, hbs]
    simp
  · intro h k p hbs hp
    unfold Parallel.rsa_meet_in_the_middle
    rw [hcut h, hbs]
    have hne : ((k : Int) ≠ -1) := by omega
    simp only [ne_eq, hne, not_false_eq_true, if_true, read_at_natCast, hp, mpz_mul]

/-- C11 (cooperative early termination), counterexample to the claim as
stated: started with the flag already set on the table `[(1, 1), (2, 8)]`
(`N = 15`, `e = 3`) and `c = 1`, the worker of the range `[0, 2)` looks up its
first candidate, finds its match and returns `0` with the result `1`. -/
theorem stop_set_worker_finds :
    Parallel.rsa_meet_in_the_middle (fun a _ => a) 1 [⟨1, 1⟩, ⟨2, 8⟩] 2 0 2 3 15 true 0 =
      .ok (0, 1, true) := by
  decide

/-- C12 (result arbitration), amended: the join loop overwrites `m` with every
non-empty worker result, so the coordinator accepts the last non-empty result
of its scan, the one of the highest worker index that has one; it accepts
nothing when every result is empty. -/
theorem result_scan_last :
    (∀ rs : List (Option Nat), (∀ r ∈ rs, r = none) → Parallel.result_scan rs = none) ∧
    (∀ (l1 l2 : List (Option Nat)) (m : Nat), (∀ r ∈ l2, r = none) →
      Parallel.result_scan (l1 ++ some m :: l2) = some m) := by
  have hnone : ∀ (rs : List (Option Nat)) (m0 : Option Nat), (∀ r ∈ rs, r = none) →
      rs.foldl (fun m r => if r.isSome then r else m) m0 = m0 := by
    intro rs
    induction rs with
    | nil => intro m0 _; rfl
    | cons r rs ih =>
      intro m0 h
      rw [List.foldl_cons, h r (List.mem_cons_self _ _)]
      simp only [Option.isSome_none, Bool.false_eq_true, if_false]
      exact ih m0 (fun x hx => h x (List.mem_cons_of_mem _ hx))
  refine ⟨fun rs h => hnone rs none h, ?_⟩
  intro l1 l2 m h
  unfold Parallel.result_scan
  rw [List.foldl_append, List.foldl_cons]
  simp only [Option.isSome_some, if_true]
  exact hnone l2 (some m) h

/-- C12 (result arbitration), counterexample to the claim as stated: for
`N = 11`, `e = 3`, `c = 1`, `L = 4` and four workers run in index order, the
workers end with the results `1`, none, `12`, `12`; the coordinator accepts
`12`, the result of the highest worker index, not the `1` of worker `0`. -/
theorem result_scan_not_first :
    Parallel.search_phase (fun a _ => a) 4 1 (qsort compare_precalc (built 4 3 11)) 4 3 11
      (List.range 4) false = .ok [some 1, none, some 12, some 12] ∧
    Parallel.result_scan [some 1, none, some 12, some 12] = some 12 ∧
    Parallel.attack (fun a _ => a) 4 11 3 1 4 = .ok (some 12) := by
  decide

/-- C16 (stop flag is monotone): a call of the threaded searcher that returns
either returns `1` and leaves the flag and `res` as they were, or returns `0`
with the flag set.  Hence the flag on return is the flag on entry or-ed with
"a match was found", and a set flag is never cleared. -/
theorem stop_flag_monotone (junk : Nat → Nat → Nat) (c : Nat) (arr : List precalc)
    (size start end_ e n : Nat) (stop : Bool) (res : Nat) :
    ((∃ f, Parallel.rsa_meet_in_the_middle junk c arr size start end_ e n stop res = .error f) ∨
      Parallel.rsa_meet_in_the_middle junk c arr size start end_ e n stop res =
        .ok (1, res, stop) ∨
      ∃ m, Parallel.rsa_meet_in_the_middle junk c arr size start end_ e n stop res =
        .ok (0, m, true)) ∧
    (∀ (r : Int) (m : Nat) (s : Bool),
      Parallel.rsa_meet_in_the_middle junk c arr size start end_ e n stop res = .ok (r, m, s) →
      s = (stop || decide (r = 0)) ∧ (stop = true → s = true) ∧
      (r ≠ 0 → m = res ∧ s = stop)) := by
  have h3 : (∃ f, Parallel.rsa_meet_in_the_middle junk c arr size start end_ e n stop res =
        .error f) ∨
      Parallel.rsa_meet_in_the_middle junk c arr size start end_ e n stop res =
        .ok (1, res, stop) ∨
      ∃ m, Parallel.rsa_meet_in_the_middle junk c arr size start end_ e n stop res =
        .ok (0, m, true) := by
    unfold Parallel.rsa_meet_in_the_middle
    cases Parallel.search_loop junk c arr size e n stop
        (List.range' start (end_ - start)) (-1, 0) with
    | error f => exact Or.inl ⟨f, rfl⟩
    | ok st =>
      obtain ⟨idx, ii⟩ := st
      by_cases hidx : idx = -1
      · right; left
        simp [hidx]
      · simp only [ne_eq, hidx, not_false_eq_true, if_true]
        cases read_at arr idx with
        | none => exact Or.inl ⟨_, rfl⟩
        | some p => exact Or.inr (Or.inr ⟨_, rfl⟩)
  refine ⟨h3, ?_⟩
  intro r m s hret
  rcases h3 with ⟨f, hf⟩ | h1 | ⟨m0, h0⟩
  · rw [hf] at hret; cases hret
  · rw [h1] at hret
    cases hret
    refine ⟨by simp, fun h => h, fun _ => ⟨rfl, rfl⟩⟩
  · rw [h0] at hret
    cases hret
    refine ⟨by simp, fun _ => rfl, fun h => absurd rfl h⟩

/-- C14 (allocation overflow): on the 64-bit target, where the C library grants
no block of `2 ^ 59` bytes or more, `alloc_table` returns `NULL` for every
entry count whose byte size `size * sizeof(struct precalc)` overflows `size_t`:
either the guard `size * sizeof(struct precalc) <= size` catches the wrapped
product, or the wrapped product is above `size`, hence above `2 ^ 59`, and
`malloc` refuses it.  A table is only handed out for a byte size that did not
wrap, from a block of exactly that many bytes. -/
theorem alloc_table_overflow (malloc : Nat → Bool)
    (hmalloc : ∀ b, 2 ^ 59 ≤ b → malloc b = false) (size : Nat) :
    (SIZE_T ≤ size * sizeof_precalc → alloc_table malloc size = none) ∧
    (∀ t, alloc_table malloc size = some t →
      size * sizeof_precalc < SIZE_T ∧ malloc (size * sizeof_precalc) = true ∧
        t = fresh_table size) := by
  have hS : SIZE_T = 18446744073709551616 := by decide
  have hover : SIZE_T ≤ size * sizeof_precalc → alloc_table malloc size = none := by
    intro h
    unfold alloc_table
    by_cases hg : size * sizeof_precalc % SIZE_T ≤ size
    · rw [if_pos hg]
    · rw [if_neg hg]
      have hb : 2 ^ 59 ≤ size * sizeof_precalc % SIZE_T := by
        unfold sizeof_precalc at *
        rw [hS] at *
        norm_num
        omega
      rw [hmalloc _ hb]
      rfl
  refine ⟨hover, ?_⟩
  intro t ht
  have hlt : size * sizeof_precalc < SIZE_T := by
    by_contra hge
    rw [hover (by omega)] at ht
    cases ht
  unfold alloc_table at ht
  rw [Nat.mod_eq_of_lt hlt] at ht
  by_cases hg : size * sizeof_precalc ≤ size
  · rw [if_pos hg] at ht
    cases ht
  · rw [if_neg hg] at ht
    by_cases hm : malloc (size * sizeof_precalc) = true
    · rw [if_pos hm] at ht
      cases ht
      exact ⟨hlt, hm, rfl⟩
    · rw [if_neg hm] at ht
      cases ht

theorem alloc_table_overflow_witness :
    (∀ b, 2 ^ 59 ≤ b → (fun b => decide (b < 2 ^ 47)) b = false) ∧
    ((SIZE_T ≤ 2 ^ 60 * sizeof_precalc →
        alloc_table (fun b => decide (b < 2 ^ 47)) (2 ^ 60) = none) ∧
      (∀ t, alloc_table (fun b => decide (b < 2 ^ 47)) (2 ^ 60) = some t →
        2 ^ 60 * sizeof_precalc < SIZE_T ∧
          (fun b => decide (b < 2 ^ 47)) (2 ^ 60 * sizeof_precalc) = true ∧
          t = fresh_table (2 ^ 60))) ∧
    SIZE_T ≤ 2 ^ 60 * sizeof_precalc ∧
    ¬ (2 ^ 60 * sizeof_precalc % SIZE_T ≤ 2 ^ 60) :=
  ⟨fun b hb => decide_eq_false (by omega),
    alloc_table_overflow (fun b => decide (b < 2 ^ 47))
      (fun b hb => decide_eq_false (by omega)) (2 ^ 60),
    by decide, by decide⟩

/-- The guard of `alloc_table` does not catch every overflow by itself: for
`size = 2 ^ 60` the byte size wraps to `2 ^ 63`, above `size`, and the request
goes on to `malloc`.  Only an allocator that granted a block of `2 ^ 63` bytes
would let a table come out of it. -/
theorem alloc_guard_passes_wrapped :
    table_size 120 = .ok (2 ^ 60) ∧
    SIZE_T ≤ 2 ^ 60 * sizeof_precalc ∧
    2 ^ 60 * sizeof_precalc % SIZE_T = 2 ^ 63 ∧
    alloc_table (fun _ => true) (2 ^ 60) = some (fresh_table (2 ^ 60)) := by
  refine ⟨by decide, by decide, by decide, ?_⟩
  unfold alloc_table
  rw [if_neg (by decide), if_pos rfl]

/-! ## Candidates without an inverse -/

/-- C15 (non-invertible candidate), evaluated where the code departs from it:
for `N = 33`, `e = 3`, `c = 23` on the sorted table of `L = 4` the candidate
`3` has no inverse (`gcd(27, 33) = 3`).  The searcher does not skip it: it
looks up `c * rop mod N` for whatever the failed `mpz_invert` left in `rop`.
With `rop` unchanged it reports the match `9` (and `9 ^ 3 mod 33 ≠ 23`), with
`rop = 0` it reads outside the table, with `rop = 1` it finds nothing. -/
theorem non_invertible_candidate :
    Nat.gcd (3 ^ 3 % 33) 33 ≠ 1 ∧
    qsort compare_precalc (built 4 3 33) = [⟨1, 1⟩, ⟨2, 8⟩, ⟨3, 27⟩, ⟨4, 31⟩] ∧
    Single.rsa_meet_in_the_middle (fun a _ => a) 23 (qsort compare_precalc (built 4 3 33))
      4 3 33 0 = .ok (0, 9) ∧
    9 ^ 3 % 33 ≠ 23 ∧
    Single.rsa_meet_in_the_middle (fun _ _ => 0) 23 (qsort compare_precalc (built 4 3 33))
      4 3 33 0 = .error .oob ∧
    Single.rsa_meet_in_the_middle (fun _ _ => 1) 23 (qsort compare_precalc (built 4 3 33))
      4 3 33 0 = .ok (1, 0) ∧
    Parallel.rsa_meet_in_the_middle (fun a _ => a) 23 (qsort compare_precalc (built 4 3 33))
      4 2 3 3 33 false 0 = .ok (0, 9, true) := by
  decide

/-- C20 (single-threaded and threaded variants agree): on every table the
threaded searcher on the full slice `[0, size)` with the flag unset returns
the status and the result of the single-threaded searcher, and the threaded
program with one worker has the outcome of the single-threaded program. -/
theorem variants_agree :
    (∀ (junk : Nat → Nat → Nat) (c : Nat) (arr : List precalc) (size e n res : Nat),
      (Parallel.rsa_meet_in_the_middle junk c arr size 0 size e n false res).map
        (fun x => (x.1, x.2.1)) = Single.rsa_meet_in_the_middle junk c arr size e n res) ∧
    (∀ (junk : Nat → Nat → Nat) (N E c L : Nat),
      Parallel.attack junk 1 N E c L = Single.attack junk N E c L) := by
  refine ⟨fun junk c arr size e n res => (single_mitm_eq junk c arr size e n res).symm, ?_⟩
  intro junk N E c L
  unfold Parallel.attack Single.attack table_size
  by_cases hL : L / 2 < 64
  · rw [if_pos hL]
    simp only []
    obtain ⟨hpos, hmax⟩ := pow_two_le_of_shift L hL
    have hargs : Parallel.build_args 1 (2 ^ (L / 2)) 0 = (0, 2 ^ (L / 2)) := by
      rw [build_args_eq 1 (2 ^ (L / 2)) 0 (by omega) (le_refl _) (by decide)]
      simp
    unfold Parallel.attack_on Single.attack_on
    have hbuild : Parallel.build_phase (fresh_table (2 ^ (L / 2))) 1 (2 ^ (L / 2)) E N
        (List.range 1) = Single.build_table (fresh_table (2 ^ (L / 2))) (2 ^ (L / 2)) E N := by
      have : List.range 1 = [0] := rfl
      rw [this, single_build_table_eq]
      unfold Parallel.build_phase
      rw [List.foldl_cons, List.foldl_nil, hargs]
    simp only [hbuild]
    have hr1 : List.range 1 = [0] := rfl
    rw [hr1, Parallel.search_phase, mitm_args_eq_build_args, hargs,
      Parallel.rsa_meet_in_the_middle_thread, single_mitm_eq]
    cases Parallel.rsa_meet_in_the_middle junk c
        (qsort compare_precalc
          (Single.build_table (fresh_table (2 ^ (L / 2))) (2 ^ (L / 2)) E N))
        (2 ^ (L / 2)) 0 (2 ^ (L / 2)) E N false 0 with
    | error f => rfl
    | ok x =>
      obtain ⟨r, m, s⟩ := x
      by_cases hr : r = 0
      · simp [hr, Except.map, Parallel.search_phase, Parallel.result_scan]
      · simp [hr, Except.map, Parallel.search_phase, Parallel.result_scan]
  · rw [if_neg hL]

/-! ## Soundness of a reported match -/

theorem size_t_of_int_lt (z : Int) : size_t_of_int z < 2 ^ 64 := by
  unfold size_t_of_int
  rw [SIZE_T_eq]
  have h1 : z % ((2 ^ 64 : Nat) : Int) < ((2 ^ 64 : Nat) : Int) :=
    Int.emod_lt_of_pos _ (by norm_num)
  have h2 : 0 ≤ z % ((2 ^ 64 : Nat) : Int) := Int.emod_nonneg _ (by norm_num)
  omega

/-- Whatever the table, a lookup that returns an index other than `-1` returns
the conversion of a slot `mid < 2 ^ 64` whose entry has the value looked up. -/
theorem binary_search_loop_sound (arr : List precalc) (x : Nat) :
    ∀ (fuel low high : Nat) (r : Int), high < 2 ^ 64 →
      binary_search_loop arr x fuel low high = .ok r →
      r = -1 ∨ ∃ (mid : Nat) (p : precalc), mid < 2 ^ 64 ∧ r = to_ssize mid ∧
        arr[mid]? = some p ∧ p.val = x := by
  intro fuel
  induction fuel with
  | zero =>
    intro low high r _ h
    rw [binary_search_loop] at h
    cases h
  | succ f ih =>
    intro low high r hh h
    rw [binary_search_loop] at h
    by_cases hle : low ≤ high
    · rw [if_pos hle] at h
      simp only [] at h
      cases hget : arr[low + (high - low) / 2]? with
      | none => rw [hget] at h; cases h
      | some p =>
        rw [hget] at h
        simp only [] at h
        by_cases hlt : mpz_cmp p.val x < 0
        · rw [if_pos hlt] at h
          exact ih _ _ r hh h
        · rw [if_neg hlt] at h
          by_cases hgt : mpz_cmp p.val x > 0
          · rw [if_pos hgt] at h
            exact ih _ _ r (size_t_of_int_lt _) h
          · rw [if_neg hgt] at h
            right
            refine ⟨low + (high - low) / 2, p, by omega, ?_, hget, ?_⟩
            · cases h; rfl
            · have h1 : ¬ p.val < x := fun hc => hlt ((mpz_cmp_neg _ _).mpr hc)
              have h2 : ¬ x < p.val := fun hc => hgt ((mpz_cmp_pos _ _).mpr hc)
              omega
    · rw [if_neg hle] at h
      left
      cases h; rfl

theorem binary_search_sound (arr : List precalc) (x size : Nat) (r : Int)
    (h : binary_search arr x size = .ok r) :
    r = -1 ∨ ∃ (mid : Nat) (p : precalc), mid < 2 ^ 64 ∧ r = to_ssize mid ∧
      arr[mid]? = some p ∧ p.val = x :=
  binary_search_loop_sound arr x _ _ _ r (size_t_of_int_lt _) h

/-- The entry read back through the returned `ssize_t` index is the entry the
lookup compared equal. -/
theorem read_at_to_ssize (arr : List precalc) (mid : Nat) (p q : precalc)
    (hmid : mid < 2 ^ 64) (hp : arr[mid]? = some p) (hq : read_at arr (to_ssize mid) = some q) :
    q = p := by
  unfold to_ssize at hq
  by_cases h : mid < 2 ^ 63
  · rw [if_pos h, read_at_natCast, hp] at hq
    cases hq; rfl
  · rw [if_neg h] at hq
    unfold read_at at hq
    rw [if_neg (by omega)] at hq
    cases hq

/-- A loop that ends with an index other than `-1` ends at a candidate of its
list with the index that the lookup of that candidate returned. -/
theorem par_search_loop_sound (junk : Nat → Nat → Nat) (c : Nat) (arr : List precalc)
    (size e n : Nat) (stop : Bool) :
    ∀ (l : List Nat) (st : Int × Nat) (idx : Int) (ii : Nat),
      Parallel.search_loop junk c arr size e n stop l st = .ok (idx, ii) →
      (idx, ii) = st ∨ idx = -1 ∨ ∃ i ∈ l, ii = i + 1 ∧
        binary_search arr (lookup_value junk c e n (i + 1)) size = .ok idx := by
  intro l
  induction l with
  | nil =>
    intro st idx ii h
    rw [Parallel.search_loop] at h
    cases h
    exact Or.inl rfl
  | cons i rest ih =>
    intro st idx ii h
    rw [Parallel.search_loop] at h
    cases hbs : binary_search arr (lookup_value junk c e n (i + 1)) size with
    | error f => rw [hbs] at h; cases h
    | ok r =>
      rw [hbs] at h
      simp only [] at h
      by_cases hc : r ≠ -1 ∨ stop = true
      · rw [if_pos hc] at h
        cases h
        exact Or.inr (Or.inr ⟨i, List.mem_cons_self _ _, rfl, hbs⟩)
      · rw [if_neg hc] at h
        rcases ih _ idx ii h with h1 | h1 | ⟨k, hk, h2, h3⟩
        · right; left
          cases h1
          by_contra hne
          exact hc (Or.inl hne)
        · exact Or.inr (Or.inl h1)
        · exact Or.inr (Or.inr ⟨k, List.mem_cons_of_mem _ hk, h2, h3⟩)

/-- Soundness of the threaded searcher on the slice `[start, end)`. -/
theorem par_mitm_sound (junk : Nat → Nat → Nat) (c : Nat) (arr : List precalc)
    (size start end_ e n res m : Nat) (stop s : Bool)
    (h : Parallel.rsa_meet_in_the_middle junk c arr size start end_ e n stop res =
      .ok (0, m, s)) :
    ∃ (j : Nat) (p : precalc), start + 1 ≤ j ∧ j ≤ end_ ∧ p ∈ arr ∧
      p.val = lookup_value junk c e n j ∧ m = j * p.i := by
  unfold Parallel.rsa_meet_in_the_middle at h
  cases hloop : Parallel.search_loop junk c arr size e n stop
      (List.range' start (end_ - start)) (-1, 0) with
  | error f => rw [hloop] at h; cases h
  | ok st =>
    obtain ⟨idx, ii⟩ := st
    rw [hloop] at h
    simp only [] at h
    by_cases hidx : idx = -1
    · rw [if_neg (by simp [hidx])] at h
      cases h
    · rw [if_pos hidx] at h
      cases hread : read_at arr idx with
      | none => rw [hread] at h; cases h
      | some q =>
        rw [hread] at h
        simp only [] at h
        have hm : m = ii * q.i := by
          cases h; rfl
        rcases par_search_loop_sound junk c arr size e n stop _ _ idx ii hloop with
          h1 | h1 | ⟨i, hi, h2, h3⟩
        · cases h1; exact absurd rfl hidx
        · exact absurd h1 hidx
        · rcases binary_search_sound arr _ size idx h3 with h4 | ⟨mid, p, hmid, h5, h6, h7⟩
          · exact absurd h4 hidx
          · subst h5
            have hqp := read_at_to_ssize arr mid p q hmid h6 hread
            subst hqp
            have hi2 := List.mem_range'_1.mp hi
            refine ⟨i + 1, q, by omega, by omega, List.mem_iff_getElem?.mpr ⟨mid, h6⟩, ?_, ?_⟩
            · exact h7
            · rw [hm, h2]

/-- Soundness of a returned match on the runs that stay inside the table: on a
table whose entries all have `val = i ^ e mod N` with `1 ≤ i ≤ size` (and
`N > 0`), whenever the single-threaded searcher, or the threaded one on a
slice with `end ≤ size`, returns `0` without having read outside the table,
the returned `m` is a product `i * j` of a table index `i` and a candidate
`j`, both in `[1, size]`, with `i ^ e mod N` equal to the lookup value of `j`;
so `1 ≤ m ≤ size * size`, and `m ^ e ≡ c (mod N)` when `j ^ e` is invertible
modulo `N`. -/
theorem match_is_sound (junk : Nat → Nat → Nat) (c : Nat) (arr : List precalc)
    (size e N : Nat) (hN : 0 < N)
    (htab : ∀ p ∈ arr, p.val = p.i ^ e % N ∧ 1 ≤ p.i ∧ p.i ≤ size) :
    (∀ res m, Single.rsa_meet_in_the_middle junk c arr size e N res = .ok (0, m) →
      ∃ i j, 1 ≤ i ∧ i ≤ size ∧ 1 ≤ j ∧ j ≤ size ∧ m = i * j ∧
        i ^ e % N = lookup_value junk c e N j ∧ 1 ≤ m ∧ m ≤ size * size ∧
        (Nat.gcd (j ^ e % N) N = 1 → m ^ e % N = c % N)) ∧
    (∀ start end_ stop res m s, end_ ≤ size →
      Parallel.rsa_meet_in_the_middle junk c arr size start end_ e N stop res = .ok (0, m, s) →
      ∃ i j, 1 ≤ i ∧ i ≤ size ∧ start + 1 ≤ j ∧ j ≤ end_ ∧ m = i * j ∧
        i ^ e % N = lookup_value junk c e N j ∧ 1 ≤ m ∧ m ≤ size * size ∧
        (Nat.gcd (j ^ e % N) N = 1 → m ^ e % N = c % N)) := by
  have key : ∀ start end_ stop res m s, end_ ≤ size →
      Parallel.rsa_meet_in_the_middle junk c arr size start end_ e N stop res = .ok (0, m, s) →
      ∃ i j, 1 ≤ i ∧ i ≤ size ∧ start + 1 ≤ j ∧ j ≤ end_ ∧ m = i * j ∧
        i ^ e % N = lookup_value junk c e N j ∧ 1 ≤ m ∧ m ≤ size * size ∧
        (Nat.gcd (j ^ e % N) N = 1 → m ^ e % N = c % N) := by
    intro start end_ stop res m s hend h
    obtain ⟨j, p, hj1, hj2, hp, hv, hm⟩ := par_mitm_sound junk c arr size start end_ e N res m
      stop s h
    obtain ⟨t1, t2, t3⟩ := htab p hp
    have hm2 : m = p.i * j := by rw [hm, Nat.mul_comm]
    refine ⟨p.i, j, t2, t3, hj1, hj2, hm2, by rw [← t1]; exact hv, ?_, ?_, ?_⟩
    · rw [hm2]; exact Nat.mul_pos (by omega) (by omega)
    · rw [hm2]; exact Nat.mul_le_mul t3 (by omega)
    · intro hg
      rw [hm]
      exact match_sound junk c e N j p.i hN hg (by rw [← t1]; exact hv)
  refine ⟨?_, key⟩
  intro res m h
  rw [single_mitm_eq] at h
  cases hpar : Parallel.rsa_meet_in_the_middle junk c arr size 0 size e N false res with
  | error f => rw [hpar] at h; cases h
  | ok x =>
    obtain ⟨r, m0, s⟩ := x
    rw [hpar] at h
    have h2 : r = 0 ∧ m0 = m := by
      simp only [Except.map] at h
      cases h
      exact ⟨rfl, rfl⟩
    obtain ⟨rfl, rfl⟩ := h2
    obtain ⟨i, j, a1, a2, a3, a4, a5, a6, a7, a8, a9⟩ := key 0 size false res m0 s (le_refl _) hpar
    exact ⟨i, j, a1, a2, by omega, a4, a5, a6, a7, a8, a9⟩

theorem match_is_sound_witness :
    (0 < 15 ∧ ∀ p ∈ [(⟨1, 1⟩ : precalc), ⟨2, 8⟩], p.val = p.i ^ 3 % 15 ∧ 1 ≤ p.i ∧ p.i ≤ 2) ∧
    ((∀ res m, Single.rsa_meet_in_the_middle (fun a _ => a) 4 [⟨1, 1⟩, ⟨2, 8⟩] 2 3 15 res =
        .ok (0, m) →
      ∃ i j, 1 ≤ i ∧ i ≤ 2 ∧ 1 ≤ j ∧ j ≤ 2 ∧ m = i * j ∧
        i ^ 3 % 15 = lookup_value (fun a _ => a) 4 3 15 j ∧ 1 ≤ m ∧ m ≤ 2 * 2 ∧
        (Nat.gcd (j ^ 3 % 15) 15 = 1 → m ^ 3 % 15 = 4 % 15)) ∧
    (∀ start end_ stop res m s, end_ ≤ 2 →
      Parallel.rsa_meet_in_the_middle (fun a _ => a) 4 [⟨1, 1⟩, ⟨2, 8⟩] 2 start end_ 3 15 stop res =
        .ok (0, m, s) →
      ∃ i j, 1 ≤ i ∧ i ≤ 2 ∧ start + 1 ≤ j ∧ j ≤ end_ ∧ m = i * j ∧
        i ^ 3 % 15 = lookup_value (fun a _ => a) 4 3 15 j ∧ 1 ≤ m ∧ m ≤ 2 * 2 ∧
        (Nat.gcd (j ^ 3 % 15) 15 = 1 → m ^ 3 % 15 = 4 % 15))) ∧
    Single.rsa_meet_in_the_middle (fun a _ => a) 4 [⟨1, 1⟩, ⟨2, 8⟩] 2 3 15 0 = .ok (0, 4) :=
  ⟨⟨by decide, by decide⟩,
    match_is_sound (fun a _ => a) 4 [⟨1, 1⟩, ⟨2, 8⟩] 2 3 15 (by decide) (by decide),
    by decide⟩

/-- C17 (soundness), evaluated where the code departs from it: for `N = 15`,
`e = 3`, `c = 0` and the sorted built table `[(1, 1), (2, 8)]` of `size = 2`
every entry has `val = i ^ e mod N` with `1 ≤ i ≤ size` and every candidate is
invertible, so the conditions of the claim hold.  No `m` in `[1, size * size]`
has `m ^ e ≡ c (mod N)`, so no return of `0` is sound here.  The searcher looks
up `s = 0` for the first candidate; `binary_search` reads `arr[0]`, decrements
`mid = 0` and reads `arr[2 ^ 63 - 1]`, outside the table.  The status and the
`m` of the searcher (either variant, any flag) are then what the memory
outside the table makes them, not what the claim promises. -/
theorem soundness_lost_below_first_entry :
    ((∀ p ∈ [(⟨1, 1⟩ : precalc), ⟨2, 8⟩], p.val = p.i ^ 3 % 15 ∧ 1 ≤ p.i ∧ p.i ≤ 2) ∧
      qsort compare_precalc (built 2 3 15) = [⟨1, 1⟩, ⟨2, 8⟩] ∧
      (∀ k, 1 ≤ k → k ≤ 2 → Nat.gcd (k ^ 3 % 15) 15 = 1)) ∧
    (∀ m, 1 ≤ m → m ≤ 2 * 2 → m ^ 3 % 15 ≠ 0 % 15) ∧
    lookup_value (fun a _ => a) 0 3 15 1 = 0 ∧
    binary_search_traced [⟨1, 1⟩, ⟨2, 8⟩] 0 2 = (.error .oob, [2 ^ 63 - 1, 0], true) ∧
    Single.rsa_meet_in_the_middle (fun a _ => a) 0 [⟨1, 1⟩, ⟨2, 8⟩] 2 3 15 0 = .error .oob ∧
    (∀ stop, Parallel.rsa_meet_in_the_middle (fun a _ => a) 0 [⟨1, 1⟩, ⟨2, 8⟩] 2 0 2 3 15 stop 0 =
      .error .oob) := by
  decide

/-! ## Bounds safety of the lookup -/

/-- The ghost record does not change what the lookup returns. -/
theorem binary_search_loop_traced_fst (arr : List precalc) (x : Nat) :
    ∀ (fuel low high : Nat) (reads : List Nat) (wrapped : Bool),
      (binary_search_loop_traced arr x fuel low high reads wrapped).1 =
        binary_search_loop arr x fuel low high := by
  intro fuel
  induction fuel with
  | zero => intro low high reads wrapped; rfl
  | succ f ih =>
    intro low high reads wrapped
    rw [binary_search_loop_traced, binary_search_loop]
    by_cases hle : low ≤ high
    · rw [if_pos hle, if_pos hle]
      simp only []
      cases arr[low + (high - low) / 2]? with
      | none => rfl
      | some p =>
        simp only []
        by_cases hlt : mpz_cmp p.val x < 0
        · rw [if_pos hlt, if_pos hlt]; exact ih _ _ _ _
        · rw [if_neg hlt, if_neg hlt]
          by_cases hgt : mpz_cmp p.val x > 0
          · rw [if_pos hgt, if_pos hgt]; exact ih _ _ _ _
          · rw [if_neg hgt, if_neg hgt]
    · rw [if_neg hle, if_neg hle]

/-- A decrement of zero is recorded only if it was recorded before or the
first entry of the table lies above `x`. -/
theorem binary_search_loop_traced_wrap (arr : List precalc) (x : Nat) :
    ∀ (fuel low high : Nat) (reads : List Nat) (wrapped : Bool),
      (binary_search_loop_traced arr x fuel low high reads wrapped).2.2 = true →
      wrapped = true ∨ ∃ p, arr[0]? = some p ∧ x < p.val := by
  intro fuel
  induction fuel with
  | zero => intro low high reads wrapped h; exact Or.inl h
  | succ f ih =>
    intro low high reads wrapped h
    rw [binary_search_loop_traced] at h
    by_cases hle : low ≤ high
    · rw [if_pos hle] at h
      simp only [] at h
      cases hget : arr[low + (high - low) / 2]? with
      | none => rw [hget] at h; exact Or.inl h
      | some p =>
        rw [hget] at h
        simp only [] at h
        by_cases hlt : mpz_cmp p.val x < 0
        · rw [if_pos hlt] at h; exact ih _ _ _ _ h
        · rw [if_neg hlt] at h
          by_cases hgt : mpz_cmp p.val x > 0
          · rw [if_pos hgt] at h
            rcases ih _ _ _ _ h with h1 | h1
            · by_cases hw : wrapped = true
              · exact Or.inl hw
              · right
                have hm0 : low + (high - low) / 2 = 0 := by
                  simpa [hw] using h1
                rw [hm0] at hget
                exact ⟨p, hget, (mpz_cmp_pos _ _).mp hgt⟩
            · exact Or.inr h1
          · rw [if_neg hgt] at h; exact Or.inl h
    · rw [if_neg hle] at h; exact Or.inl h

/-- On a table of `size` entries whose first value is not above `x`, a run from
inside the table returns, reads only slots below `size` and never decrements
zero.  The table need not be sorted. -/
theorem binary_search_loop_traced_safe (arr : List precalc) (x size : Nat)
    (hlen : arr.length = size) (hmax : size < 2 ^ 63)
    (hmin : ∀ p, arr[0]? = some p → p.val ≤ x) :
    ∀ (fuel low high : Nat) (reads : List Nat),
      low ≤ high + 1 → high < size → high + 2 ≤ fuel + low → (∀ k ∈ reads, k < size) →
      (∃ r, (binary_search_loop_traced arr x fuel low high reads false).1 = .ok r) ∧
      (∀ k ∈ (binary_search_loop_traced arr x fuel low high reads false).2.1, k < size) ∧
      (binary_search_loop_traced arr x fuel low high reads false).2.2 = false := by
  intro fuel
  induction fuel with
  | zero => intro low high reads h1 _ h3; omega
  | succ f ih =>
    intro low high reads h1 h2 h3 hreads
    rw [binary_search_loop_traced]
    by_cases hle : low ≤ high
    · rw [if_pos hle]
      simp only []
      have hmid_hi : low + (high - low) / 2 ≤ high := by omega
      generalize hm : low + (high - low) / 2 = mid at *
      have hmlt : mid < arr.length := by omega
      have hget : arr[mid]? = some arr[mid] := List.getElem?_eq_getElem hmlt
      rw [hget]
      simp only []
      have hreads2 : ∀ k ∈ mid :: reads, k < size := by
        intro k hk
        rcases List.mem_cons.mp hk with rfl | hk
        · omega
        · exact hreads k hk
      by_cases hlt : mpz_cmp arr[mid].val x < 0
      · rw [if_pos hlt, size_t_of_int_succ mid (by omega)]
        exact ih (mid + 1) high _ (by omega) h2 (by omega) hreads2
      · rw [if_neg hlt]
        by_cases hgt : mpz_cmp arr[mid].val x > 0
        · rw [if_pos hgt]
          have hm0 : mid ≠ 0 := by
            intro h0
            subst h0
            have := hmin _ hget
            have := (mpz_cmp_pos _ _).mp hgt
            omega
          have hd : (false || decide (mid = 0)) = false := by simp [hm0]
          rw [hd, size_t_of_int_pred mid (by omega) (by omega)]
          exact ih low (mid - 1) _ (by omega) (by omega) (by omega) hreads2
        · rw [if_neg hgt]
          exact ⟨⟨_, rfl⟩, hreads2, rfl⟩
    · rw [if_neg hle]
      exact ⟨⟨_, rfl⟩, hreads, rfl⟩

/-- C18 (bounds safety of `binary_search`): the ghost record does not change
the result; a decrement of zero (`size - 1` at `size = 0`, `high = mid - 1` at
`mid = 0`) happens only when `size = 0` or `x` is below the first table value;
and for every table of `1 ≤ size < 2 ^ 63` entries and every `x` not below the
first value, `binary_search` returns, reads only slots below `size` and never
decrements zero. -/
theorem binary_search_in_bounds (arr : List precalc) (x size : Nat) :
    (binary_search_traced arr x size).1 = binary_search arr x size ∧
    ((binary_search_traced arr x size).2.2 = true →
      size = 0 ∨ ∃ p, arr[0]? = some p ∧ x < p.val) ∧
    (arr.length = size → 1 ≤ size → size < 2 ^ 63 → (∀ p, arr[0]? = some p → p.val ≤ x) →
      (∃ r, binary_search arr x size = .ok r) ∧
      (∀ k ∈ (binary_search_traced arr x size).2.1, k < size) ∧
      (binary_search_traced arr x size).2.2 = false) := by
  refine ⟨binary_search_loop_traced_fst arr x _ _ _ _ _, ?_, ?_⟩
  · intro h
    rcases binary_search_loop_traced_wrap arr x _ _ _ _ _ h with h1 | h1
    · left; simpa using h1
    · exact Or.inr h1
  · intro hlen hpos hmax hmin
    have hd : decide (size = 0) = false := by
      have : size ≠ 0 := by omega
      simp [this]
    have hfst := binary_search_loop_traced_fst arr x (size + 2) 0
      (size_t_of_int ((size : Int) - 1)) [] false
    have hsafe := binary_search_loop_traced_safe arr x size hlen hmax hmin (size + 2) 0
      (size - 1) [] (by omega) (by omega) (by omega) (fun k hk => absurd hk (List.not_mem_nil k))
    unfold binary_search_traced binary_search
    rw [hd]
    rw [size_t_of_int_pred size hpos (by omega)] at hfst ⊢
    rw [← hfst]
    exact hsafe

theorem binary_search_in_bounds_witness :
    (([(⟨2, 8⟩ : precalc), ⟨1, 1⟩, ⟨3, 12⟩].length = 3 ∧ 1 ≤ 3 ∧ 3 < 2 ^ 63 ∧
      (∀ p, [(⟨2, 8⟩ : precalc), ⟨1, 1⟩, ⟨3, 12⟩][0]? = some p → p.val ≤ 9)) ∧
    binary_search_traced [⟨2, 8⟩, ⟨1, 1⟩, ⟨3, 12⟩] 9 3 = (.ok (-1), [2, 1], false) ∧
    binary_search_traced [⟨2, 8⟩, ⟨1, 1⟩, ⟨3, 12⟩] 0 3 = (.error .oob, [2 ^ 63 - 1, 0, 1], true)) ∧
    ((∃ r, binary_search [⟨2, 8⟩, ⟨1, 1⟩, ⟨3, 12⟩] 9 3 = .ok r) ∧
      (∀ k ∈ (binary_search_traced [⟨2, 8⟩, ⟨1, 1⟩, ⟨3, 12⟩] 9 3).2.1, k < 3) ∧
      (binary_search_traced [⟨2, 8⟩, ⟨1, 1⟩, ⟨3, 12⟩] 9 3).2.2 = false) :=
  ⟨⟨⟨by decide, by decide, by norm_num, by simp⟩, by decide, by decide⟩,
    (binary_search_in_bounds [⟨2, 8⟩, ⟨1, 1⟩, ⟨3, 12⟩] 9 3).2.2 (by decide) (by decide)
      (by norm_num) (by simp)⟩

/-- C19 (smallest table value): for `N > 1` and a table of `size ≥ 1` entries,
after build and sort the entry `(1, 1)` of index `1` is in the table and the
first entry has a value of at most `1`; so every lookup value with
`c mod N ≠ 0` and `j ^ e` invertible is at least the first value, and (for
`size ≤ 2 ^ 63`) the lookup of it returns a correct answer from inside the
table. -/
theorem smallest_table_value (init : List precalc) (size e N : Nat) (hN : 1 < N)
    (hpos : 1 ≤ size) (hlen : init.length = size) :
    (⟨1, 1⟩ : precalc) ∈ qsort compare_precalc (Single.build_table init size e N) ∧
    ∃ p, (qsort compare_precalc (Single.build_table init size e N))[0]? = some p ∧
      p.val ≤ 1 ∧
      ∀ (junk : Nat → Nat → Nat) (c j : Nat), c % N ≠ 0 → Nat.gcd (j ^ e % N) N = 1 →
        p.val ≤ lookup_value junk c e N j ∧
        (size ≤ 2 ^ 63 →
          ∃ r, binary_search (qsort compare_precalc (Single.build_table init size e N))
              (lookup_value junk c e N j) size = .ok r ∧
            lookup_spec (qsort compare_precalc (Single.build_table init size e N))
              (lookup_value junk c e N j) r) := by
  rw [single_build_table_built init size e N hlen]
  have h1 : 1 % N = 1 := Nat.mod_eq_of_lt hN
  have hlenT : (qsort compare_precalc (built size e N)).length = size := by
    rw [(qsort_perm compare_precalc (built size e N)).length_eq]
    simp [built]
  constructor
  · rw [mem_sorted_built]
    exact ⟨0, hpos, by simp [entry, mpz_powm, h1]⟩
  · have hlt : 0 < (qsort compare_precalc (built size e N)).length := by omega
    refine ⟨(qsort compare_precalc (built size e N))[0], List.getElem?_eq_getElem hlt, ?_, ?_⟩
    · have := sorted_first_le _ size e N (qsort_sorted _) (qsort_perm _ _) hpos _
        (List.getElem?_eq_getElem hlt)
      rwa [h1] at this
    · intro junk c j hc hg
      have hfirst := sorted_first_le _ size e N (qsort_sorted _) (qsort_perm _ _) hpos _
        (List.getElem?_eq_getElem hlt)
      have hge := lookup_value_ge junk c e N j (by omega) (Or.inl hc) hg
      refine ⟨le_trans hfirst hge, ?_⟩
      intro hmax
      apply binary_search_spec _ _ size (qsort_sorted _) hlenT hpos hmax
      intro p hp
      rw [List.getElem?_eq_getElem hlt] at hp
      cases hp
      exact le_trans hfirst hge

theorem smallest_table_value_witness :
    (1 < 35 ∧ 1 ≤ 4 ∧ (fresh_table 4).length = 4) ∧
    ((⟨1, 1⟩ : precalc) ∈ qsort compare_precalc (Single.build_table (fresh_table 4) 4 5 35) ∧
    ∃ p, (qsort compare_precalc (Single.build_table (fresh_table 4) 4 5 35))[0]? = some p ∧
      p.val ≤ 1 ∧
      ∀ (junk : Nat → Nat → Nat) (c j : Nat), c % 35 ≠ 0 → Nat.gcd (j ^ 5 % 35) 35 = 1 →
        p.val ≤ lookup_value junk c 5 35 j ∧
        (4 ≤ 2 ^ 63 →
          ∃ r, binary_search (qsort compare_precalc (Single.build_table (fresh_table 4) 4 5 35))
              (lookup_value junk c 5 35 j) 4 = .ok r ∧
            lookup_spec (qsort compare_precalc (Single.build_table (fresh_table 4) 4 5 35))
              (lookup_value junk c 5 35 j) r)) :=
  ⟨⟨by decide, by decide, by decide⟩,
    smallest_table_value (fresh_table 4) 4 5 35 (by decide) (by decide) (by decide)⟩

/-! ## The iteration budget of the model -/

/-- On a table of fewer than `2 ^ 63` entries the loop does not exhaust a budget
that covers the interval `[low, high]`: a run that wraps `high` reads slot
`2 ^ 63 - 1`, outside the table, in its next iteration. -/
theorem binary_search_loop_fuel (arr : List precalc) (x : Nat) (hlen : arr.length < 2 ^ 63) :
    ∀ (fuel low high : Nat),
      ((low ≤ high + 1 ∧ high + 2 ≤ fuel + low) ∨ (low = 0 ∧ high = 2 ^ 64 - 1 ∧ 1 ≤ fuel)) →
      binary_search_loop arr x fuel low high ≠ .error .nofuel := by
  intro fuel
  induction fuel with
  | zero => intro low high h; omega
  | succ f ih =>
    intro low high h
    rw [binary_search_loop]
    by_cases hle : low ≤ high
    · rw [if_pos hle]
      simp only []
      cases hget : arr[low + (high - low) / 2]? with
      | none => simp
      | some p =>
        have hmid : low + (high - low) / 2 < arr.length :=
          (List.getElem?_eq_some.mp hget).1
        rcases h with ⟨h1, h2⟩ | ⟨h1, h2, _⟩
        · simp only []
          by_cases hlt : mpz_cmp p.val x < 0
          · rw [if_pos hlt, size_t_of_int_succ _ (by omega)]
            exact ih _ _ (Or.inl ⟨by omega, by omega⟩)
          · rw [if_neg hlt]
            by_cases hgt : mpz_cmp p.val x > 0
            · rw [if_pos hgt]
              by_cases hm0 : low + (high - low) / 2 = 0
              · rw [hm0]
                have hz : size_t_of_int (((0 : Nat) : Int) - 1) = 2 ^ 64 - 1 :=
                  size_t_of_int_pred_zero
                rw [hz]
                exact ih _ _ (Or.inr ⟨by omega, rfl, by omega⟩)
              · rw [size_t_of_int_pred _ (by omega) (by omega)]
                exact ih _ _ (Or.inl ⟨by omega, by omega⟩)
            · rw [if_neg hgt]
              simp
        · omega
    · rw [if_neg hle]
      simp

/-- On every table of fewer than `2 ^ 63` entries `binary_search` ends within its
iteration budget, with an index or with a read outside the table. -/
theorem binary_search_fuel_suffices (arr : List precalc) (x size : Nat)
    (hlen : arr.length < 2 ^ 63) (hsize : size < 2 ^ 64) :
    binary_search arr x size ≠ .error .nofuel := by
  unfold binary_search
  apply binary_search_loop_fuel arr x hlen
  by_cases h0 : size = 0
  · right
    subst h0
    exact ⟨rfl, size_t_of_int_pred_zero, by omega⟩
  · left
    rw [size_t_of_int_pred size (by omega) (by omega)]
    omega

end RsaMitm
